import Mathlib

/-!
# Verification of `sage/matroids/chow_ring_ideal.py`

A shallow embedding of the Chow ring ideal constructions for matroids:
the non-augmented ideal (`ChowRingIdeal_nonaug`), the augmented ideal in
Feitchner-Yuzvinsky presentation (`AugmentedChowRingIdeal_fy`), and the
augmented ideal in the atom-free presentation
(`AugmentedChowRingIdeal_atom_free`), together with their specialized
`groebner_basis` methods.

Multivariate polynomials over the integers are represented in a canonical
sparse form: a list of (monomial, coefficient) pairs with monomials kept as
sorted lists of variable indices and the terms kept sorted by a fixed
monomial ordering with nonzero coefficients.  All ring operations of the
Sage polynomial-ring collaborator used by the source (zero, one, addition,
multiplication, power, equality test, membership test in a list) are
mirrored by computable operations on this representation.

A matroid is modelled by the data the source consumes from its matroid
collaborator: the groundset (as a list), the rank, the flats of each rank
(as a list of finite sets, mirroring iteration order), and the rank
function on subsets.  The poset operations the source consumes
(`antichains().elements_of_depth_iterator(2)`, `order_ideal`,
`order_filter`, `atoms`) are modelled as list enumerations over the flat
lists in their iteration order.
-/

/-! ## Canonical sparse polynomials over the integers -/

/-- A monomial: the sorted list of its variable indices, with multiplicity. -/
abbrev Mon := List ℕ

/-- A polynomial: terms (monomial, nonzero coefficient), sorted by monomial. -/
abbrev ZPoly := List (Mon × ℤ)

/-- Total comparison of monomials (lexicographic on the sorted lists). -/
def monCmp : Mon → Mon → Ordering
  | [], [] => .eq
  | [], _ :: _ => .lt
  | _ :: _, [] => .gt
  | a :: as, b :: bs =>
    if a < b then .lt else if b < a then .gt else monCmp as bs

/-- Insertion of one variable index into a sorted monomial. -/
def insertVar (v : ℕ) : Mon → Mon
  | [] => [v]
  | u :: m => if v ≤ u then v :: u :: m else u :: insertVar v m

/-- Product of monomials: merge of the two sorted index lists. -/
def monMul (m n : Mon) : Mon := m.foldr insertVar n

/-- The zero polynomial (`poly_ring.zero()`). -/
def zeroP : ZPoly := []

/-- The one polynomial (`poly_ring.one()`). -/
def oneP : ZPoly := [([], 1)]

/-- The polynomial consisting of the single variable `v` (a ring generator). -/
def xv (v : ℕ) : ZPoly := [([v], 1)]

/-- Insertion of one term into a polynomial kept in canonical order,
combining coefficients of equal monomials and dropping zeros. -/
def insertTerm (m : Mon) (c : ℤ) : ZPoly → ZPoly
  | [] => [(m, c)]
  | (n, d) :: q =>
    match monCmp m n with
    | .lt => (m, c) :: (n, d) :: q
    | .gt => (n, d) :: insertTerm m c q
    | .eq => if c + d = 0 then q else (m, c + d) :: q

/-- Polynomial addition: insert the terms of the first summand into the
second. -/
def addP (p q : ZPoly) : ZPoly := p.foldr (fun t r => insertTerm t.1 t.2 r) q

/-- Multiplication of a single term by a polynomial. -/
def termMul (m : Mon) (c : ℤ) (q : ZPoly) : ZPoly :=
  q.foldr (fun t acc => addP [(monMul m t.1, c * t.2)] acc) []

/-- Polynomial multiplication. -/
def mulP (p q : ZPoly) : ZPoly :=
  p.foldr (fun t acc => addP (termMul t.1 t.2 q) acc) []

/-- Polynomial power (`p ** k`). -/
def powP (p : ZPoly) : ℕ → ZPoly
  | 0 => oneP
  | k + 1 => mulP (powP p k) p

/-- The coefficient of a monomial in a polynomial. -/
def coeff (p : ZPoly) (m : Mon) : ℤ :=
  (p.map (fun t => if t.1 = m then t.2 else 0)).sum

/-- Evaluation of a monomial at an integer assignment of the variables. -/
def evalMon (σ : ℕ → ℤ) (m : Mon) : ℤ :=
  m.foldr (fun v a => σ v * a) 1

/-- Evaluation of a polynomial at an integer assignment of the variables. -/
def evalP (σ : ℕ → ℤ) (p : ZPoly) : ℤ :=
  (p.map (fun t => t.2 * evalMon σ t.1)).sum

/-- Sum of a list of polynomials, accumulated left to right from zero. -/
def sumPolys (l : List ZPoly) : ZPoly := l.foldl addP zeroP

/-- A canonical polynomial representation: terms strictly sorted by the
monomial order, each monomial a sorted index list. -/
def IsCanon (p : ZPoly) : Prop :=
  p.Chain' (fun a b => monCmp a.1 b.1 = .lt) ∧ ∀ t ∈ p, t.1.Chain' (· ≤ ·)

/-- Membership in the ideal generated by a list of polynomials:
finite sums of multiples of the generators. -/
inductive InSpan (gens : List ZPoly) : ZPoly → Prop
  | zero : InSpan gens zeroP
  | step (p q g : ZPoly) : InSpan gens p → g ∈ gens →
      InSpan gens (addP p (mulP q g))

/-! ## Generic list helpers mirroring the collaborators -/

/-- Index of the variable assigned to a key by `dict(zip(keys, gens))`. -/
def idxOf [DecidableEq α] : List α → α → ℕ
  | [], _ => 0
  | a :: t, b => if a = b then 0 else idxOf t b + 1

/-- All ordered pairs (earlier element, later element) of a list. -/
def tailPairs : List α → List (α × α)
  | [] => []
  | a :: t => t.map (fun b => (a, b)) ++ tailPairs t

/-- Keep the first occurrence of each value (Python `dict` key semantics). -/
def dedupFirst [DecidableEq α] : List α → List α
  | [] => []
  | a :: t => a :: (dedupFirst t).filter (fun b => b ≠ a)

/-- The size-2 antichains of a list of finite sets ordered by inclusion,
each unordered incomparable pair listed once
(`lattice_flats.antichains().elements_of_depth_iterator(2)`). -/
def incompPairs (l : List (Finset ℕ)) : List (Finset ℕ × Finset ℕ) :=
  (tailPairs l).filter (fun pr => decide (¬ pr.1 ⊆ pr.2 ∧ ¬ pr.2 ⊆ pr.1))

/-! ## The matroid collaborator -/

/-- The data consumed from the matroid collaborator: groundset list, rank,
flats of each rank (in enumeration order), and the rank function. -/
structure MData where
  E : List ℕ
  rk : ℕ
  flatsOf : ℕ → List (Finset ℕ)
  rnk : Finset ℕ → ℕ

/-! ## `ChowRingIdeal_nonaug` -/

/-- `__init__`: the flats enumerated, `[X for i in range(1, rank+1) for X in flats(i)]`. -/
def nonaug_flats (M : MData) : List (Finset ℕ) :=
  (List.range M.rk).flatMap (fun i => M.flatsOf (i + 1))

/-- The indeterminate of a flat, `self._flats_generator[F]` (one ring
generator per flat, in enumeration order). -/
def nonaug_x (M : MData) (F : Finset ℕ) : ZPoly := xv (idxOf (nonaug_flats M) F)

/-- The product `term = one; for el in subset: term *= gen[el]` over a
size-2 antichain. -/
def nonaug_pair_term (M : MData) (pr : Finset ℕ × Finset ℕ) : ZPoly :=
  mulP (mulP oneP (nonaug_x M pr.1)) (nonaug_x M pr.2)

/-- The atoms of the lattice of flats, `lattice_of_flats().atoms()`
(the rank-1 flats). -/
def nonaug_atoms (M : MData) : List (Finset ℕ) := M.flatsOf 1

/-- The dictionary `atoms_gen`: keyed by the atoms, accumulated by the loop
`for F in flats: for a in atoms: if a.issubset(F): atoms_gen[a] += gen[F]`. -/
def nonaug_atom_table (M : MData) : Finset ℕ → ZPoly :=
  (nonaug_flats M).foldl
    (fun tbl F => fun a =>
      if a ∈ dedupFirst (nonaug_atoms M) ∧ a ⊆ F then addP (tbl a) (nonaug_x M F)
      else tbl a)
    (fun _ => zeroP)

/-- `_gens_constructor`: the Stanley-Reisner monomials followed by the
linear generators `list(atoms_gen.values())`. -/
def nonaug_gens_constructor (M : MData) : List ZPoly :=
  (incompPairs (nonaug_flats M)).map (nonaug_pair_term M)
    ++ (dedupFirst (nonaug_atoms M)).map (nonaug_atom_table M)

/-- `groebner_basis`: `flats = sorted(list(self._flats_generator), key=len)`. -/
def nonaug_sorted_flats (M : MData) : List (Finset ℕ) :=
  (nonaug_flats M).insertionSort (fun F G => F.card ≤ G.card)

/-- `lattice_flats.order_filter([F])`: the flats above `F`. -/
def nonaug_order_filter (M : MData) (F : Finset ℕ) : List (Finset ℕ) :=
  (nonaug_sorted_flats M).filter (fun G => decide (F ⊆ G))

/-- `lattice_flats.order_ideal([F])`: the flats below `F`. -/
def nonaug_order_ideal (M : MData) (F : Finset ℕ) : List (Finset ℕ) :=
  (nonaug_sorted_flats M).filter (fun G => decide (G ⊆ F))

/-- `term = zero; for G in order_filter([F]): term += flats_gen[G]`. -/
def nonaug_term (M : MData) (F : Finset ℕ) : ZPoly :=
  (nonaug_order_filter M F).foldl (fun t G => addP t (nonaug_x M G)) zeroP

/-- `groebner_basis` (default algorithm): the size-2 antichain monomials,
then for each flat `F` (by increasing size) and each `G` in its order
ideal the polynomial `gen[G] * term(F) ** (rank F - rank G)`. -/
def nonaug_groebner_basis (M : MData) : List ZPoly :=
  (incompPairs (nonaug_sorted_flats M)).map (nonaug_pair_term M)
    ++ (nonaug_sorted_flats M).flatMap (fun F =>
        (nonaug_order_ideal M F).map (fun G =>
          mulP (nonaug_x M G) (powP (nonaug_term M F) (M.rnk F - M.rnk G))))

/-! ## `AugmentedChowRingIdeal_fy` -/

/-- `__init__`: `self._flats = [X for i in range(rank+1) for X in flats(i)]`. -/
def fy_flats (M : MData) : List (Finset ℕ) :=
  (List.range (M.rk + 1)).flatMap (fun i => M.flatsOf i)

/-- The indeterminate of a groundset element, `self._flats_generator[x]`
(the first block of ring generators). -/
def fy_y (M : MData) (e : ℕ) : ZPoly := xv (idxOf M.E e)

/-- The indeterminate of a flat (the second block of ring generators). -/
def fy_x (M : MData) (F : Finset ℕ) : ZPoly := xv (M.E.length + idxOf (fy_flats M) F)

/-- `flats_containing[x]`: the flats containing the element `x`. -/
def fy_containing (M : MData) (e : ℕ) : List (Finset ℕ) :=
  (fy_flats M).filter (fun F => decide (e ∈ F))

/-- The total sum `term` accumulated over all flats in `_gens_constructor`. -/
def fy_total (M : MData) : ZPoly :=
  (fy_flats M).foldl (fun t F => addP t (fy_x M F)) zeroP

/-- `term = zero; for F in flats: if F in flats_containing[x]: term += gen[F]`. -/
def fy_elem_term (M : MData) (e : ℕ) : ZPoly :=
  (fy_flats M).foldl
    (fun t F => if F ∈ fy_containing M e then addP t (fy_x M F) else t) zeroP

/-- `_gens_constructor`: quadratic generators (incomparable flat pairs, then
element-flat products), followed by the linear generators (the global sum,
then one generator per groundset element). -/
def fy_gens_constructor (M : MData) : List ZPoly :=
  ((fy_flats M).flatMap (fun F =>
      ((fy_flats M).filter (fun G => decide (¬ (F ⊆ G ∨ G ⊂ F)))).map
        (fun G => mulP (fy_x M F) (fy_x M G)))
    ++ M.E.flatMap (fun x =>
        ((fy_flats M).filter (fun F => decide (F ∉ fy_containing M x))).map
          (fun F => mulP (fy_y M x) (fy_x M F))))
  ++ (fy_total M
      :: M.E.map (fun x => addP (fy_y M x) (fy_elem_term M x)))

/-- `term`, inside `groebner_basis`: the sum of `gen[H]` over flats
containing the element `i`. -/
def fy_gb_term (M : MData) (i : ℕ) : ZPoly :=
  (fy_flats M).foldl (fun t H => if i ∈ H then addP t (fy_x M H) else t) zeroP

/-- `term1`, inside `groebner_basis`: the sum of `gen[H]` over flats
`H >= G`. -/
def fy_gb_term1 (M : MData) (G : Finset ℕ) : ZPoly :=
  (fy_flats M).foldl (fun t H => if G ⊆ H then addP t (fy_x M H) else t) zeroP

/-- `groebner_basis` (default algorithm): the nested loops over flats `F`,
`G` and groundset elements `i`, with the appends guarded exactly as in the
source. -/
def fy_groebner_basis (M : MData) : List ZPoly :=
  (fy_flats M).flatMap (fun F => (fy_flats M).flatMap (fun G =>
    (if ¬ (F ⊆ G ∨ G ⊆ F) then [mulP (fy_x M F) (fy_x M G)] else [])
    ++ M.E.flatMap (fun i =>
        (if fy_gb_term M i ≠ zeroP then [addP (fy_y M i) (fy_gb_term M i)] else [])
        ++ (if fy_gb_term1 M G ≠ zeroP
            then [powP (fy_gb_term1 M G) (M.rnk G + 1)] else [])
        ++ (if F ⊂ G then
              (if fy_gb_term1 M G ≠ zeroP
               then [mulP (fy_x M F) (powP (fy_gb_term1 M G) (M.rnk G - M.rnk F))]
               else [])
            else []))))

/-! ## `AugmentedChowRingIdeal_atom_free` -/

/-- `__init__`: `self._flats = [X for i in range(1, rank+1) for X in flats(i)]`. -/
def af_flats (M : MData) : List (Finset ℕ) :=
  (List.range M.rk).flatMap (fun i => M.flatsOf (i + 1))

/-- The indeterminate of a flat, `self._flats_generator[F]`. -/
def af_x (M : MData) (F : Finset ℕ) : ZPoly := xv (idxOf (af_flats M) F)

/-- `flats_containing[x]`: the flats containing the element `x`. -/
def af_containing (M : MData) (e : ℕ) : List (Finset ℕ) :=
  (af_flats M).filter (fun F => decide (e ∈ F))

/-- `term = zero; for H in flats_containing[x]: term += gen[H]`. -/
def af_elem_term (M : MData) (e : ℕ) : ZPoly :=
  (af_containing M e).foldl (fun t H => addP t (af_x M H)) zeroP

/-- One pass of the inner loop `for x in E` of `_gens_constructor`: append
`term ** 2` unless already present, then append `gen[F] * term` when `F`
does not contain `x`. -/
def af_gens_elem_step (M : MData) (F : Finset ℕ) (Q : List ZPoly) (e : ℕ) :
    List ZPoly :=
  (if powP (af_elem_term M e) 2 ∈ Q then Q else Q ++ [powP (af_elem_term M e) 2])
    ++ (if F ∈ af_containing M e then [] else [mulP (af_x M F) (af_elem_term M e)])

/-- One pass of the outer loop `for F in self._flats` of
`_gens_constructor`: append the incomparable products `gen[F] * gen[G]`,
then run the inner loop over the groundset. -/
def af_gens_flat_step (M : MData) (Q : List ZPoly) (F : Finset ℕ) :
    List ZPoly :=
  M.E.foldl (af_gens_elem_step M F)
    (Q ++ ((af_flats M).filter (fun G => decide (¬ (F ⊆ G ∨ G ⊂ F)))).map
      (fun G => mulP (af_x M F) (af_x M G)))

/-- `_gens_constructor`: the accumulated list `Q`. -/
def af_gens_constructor (M : MData) : List ZPoly :=
  (af_flats M).foldl (af_gens_flat_step M) []

/-- `term`, inside `groebner_basis`: the sum of `gen[H]` over flats `H < F`
(the strict order ideal of `F`). -/
def af_down (M : MData) (F : Finset ℕ) : ZPoly :=
  (af_flats M).foldl (fun t H => if H ⊂ F then addP t (af_x M H) else t) zeroP

/-- `groebner_basis` (default algorithm): for each pair of flats `(F, G)`,
the incomparable product, or else the nested-flats power when `F < G` and
`term` is nonzero, always followed by `term ** rank(F) + 1`. -/
def af_groebner_basis (M : MData) : List ZPoly :=
  (af_flats M).flatMap (fun F => (af_flats M).flatMap (fun G =>
    (if ¬ (G ⊆ F ∨ F ⊂ G) then [mulP (af_x M F) (af_x M G)]
     else if F ⊂ G then
       (if af_down M F ≠ zeroP
        then [mulP (af_x M F) (powP (af_down M F) (M.rnk G - M.rnk F))]
        else [])
     else [])
    ++ [addP (powP (af_down M F) (M.rnk F)) oneP]))

/-! ## Ring construction and the naming fallback (`__init__`) -/

/-- The canonical name of a flat: the prefix and the concatenation of the
sorted element names (`'A{}'.format(''.join(str(x) for x in sorted(F, key=cmp_elements_key)))`). -/
def flatName (pre : String) (F : Finset ℕ) : String :=
  pre ++ String.join ((F.sort (· ≤ ·)).map toString)

/-- The generic indexed naming scheme `PolynomialRing(R, 'A', n)`. -/
def indexedNames (n : ℕ) : List String :=
  (List.range n).map (fun i => "A" ++ toString i)

/-- The names handed to `PolynomialRing` by `ChowRingIdeal_nonaug.__init__`. -/
def nonaug_names (M : MData) : List String :=
  (nonaug_flats M).map (flatName "A")

/-- The variable names of the ring built by `ChowRingIdeal_nonaug.__init__`:
the canonical names when the ring constructor accepts them, else the
fallback caught by `except ValueError`. -/
def nonaug_ring_names (M : MData) (valid : List String → Bool) : List String :=
  if valid (nonaug_names M) then nonaug_names M
  else indexedNames (nonaug_flats M).length

/-- The names handed to `PolynomialRing` by
`AugmentedChowRingIdeal_fy.__init__` (groundset block then flat block). -/
def fy_names (M : MData) : List String :=
  M.E.map (fun x => "A" ++ toString x) ++ (fy_flats M).map (flatName "B")

/-- The variable names of the ring built by
`AugmentedChowRingIdeal_fy.__init__`. -/
def fy_ring_names (M : MData) (valid : List String → Bool) : List String :=
  if valid (fy_names M) then fy_names M
  else indexedNames (M.E.length + (fy_flats M).length)

/-- The names handed to `PolynomialRing` by
`AugmentedChowRingIdeal_atom_free.__init__`. -/
def af_names (M : MData) : List String :=
  (af_flats M).map (flatName "A")

/-- The variable names of the ring built by
`AugmentedChowRingIdeal_atom_free.__init__`. -/
def af_ring_names (M : MData) (valid : List String → Bool) : List String :=
  if valid (af_names M) then af_names M
  else indexedNames (af_flats M).length

/-! ## The `groebner_basis` algorithm dispatch -/

/-- The outcome of a `groebner_basis` call: the specialized closed-form
basis, or delegation to the generic superclass method with the given
algorithm argument. -/
inductive GBCall
  | specialized (gb : List ZPoly)
  | delegated (alg : String)
deriving DecidableEq

/-- Dispatch of `ChowRingIdeal_nonaug.groebner_basis`. -/
def nonaug_gb_dispatch (M : MData) (algorithm : String) : GBCall :=
  let a := if algorithm = "" then "constructed" else algorithm
  if a ≠ "constructed" then .delegated a
  else .specialized (nonaug_groebner_basis M)

/-- Dispatch of `AugmentedChowRingIdeal_fy.groebner_basis`. -/
def fy_gb_dispatch (M : MData) (algorithm : String) : GBCall :=
  let a := if algorithm = "" then "constructed" else algorithm
  if a ≠ "constructed" then .delegated a
  else .specialized (fy_groebner_basis M)

/-- Dispatch of `AugmentedChowRingIdeal_atom_free.groebner_basis`. -/
def af_gb_dispatch (M : MData) (algorithm : String) : GBCall :=
  let a := if algorithm = "" then "constructed" else algorithm
  if a ≠ "constructed" then .delegated a
  else .specialized (af_groebner_basis M)

/-! ## Concrete matroids used as instances -/

/-- The free matroid on one element (`U(1,1)`): groundset `{0}`, rank 1. -/
def U11 : MData where
  E := [0]
  rk := 1
  flatsOf := fun i => if i = 0 then [∅] else if i = 1 then [{0}] else []
  rnk := fun S => if S = ∅ then 0 else 1

/-- The empty matroid: empty groundset, rank 0, single (empty) flat. -/
def Mempty : MData where
  E := []
  rk := 0
  flatsOf := fun i => if i = 0 then [∅] else []
  rnk := fun _ => 0

/-- The rank-0 matroid on one loop: `closure(emptyset) = {0}`. -/
def Mloop : MData where
  E := [0]
  rk := 0
  flatsOf := fun i => if i = 0 then [{0}] else []
  rnk := fun _ => 0

/-- The uniform matroid `U(2,3)`: three rank-1 flats and the full flat. -/
def U23 : MData where
  E := [0, 1, 2]
  rk := 2
  flatsOf := fun i =>
    if i = 0 then [∅]
    else if i = 1 then [{0}, {1}, {2}]
    else if i = 2 then [{0, 1, 2}]
    else []
  rnk := fun S => min S.card 2

/-! ## Claim-side descriptions (stated from the specification's wording) -/

/-- The sum of the indeterminates of the flats in a list. -/
def flatSum (x : Finset ℕ → ZPoly) (l : List (Finset ℕ)) : ZPoly :=
  sumPolys (l.map x)

/-- Claim C1: the closed-form basis said to be returned by
`ChowRingIdeal_nonaug.groebner_basis`: the incomparable-pair monomials,
followed by, for every flat `F` in order of increasing size and every
`G ≤ F`, `x_G * (Σ_{H ≥ F} x_H) ^ (rank F - rank G)`. -/
def spec_nonaug_gb (M : MData) : List ZPoly :=
  (incompPairs (nonaug_sorted_flats M)).map
    (fun pr => mulP (nonaug_x M pr.1) (nonaug_x M pr.2))
  ++ (nonaug_sorted_flats M).flatMap (fun F =>
       ((nonaug_sorted_flats M).filter (fun G => decide (G ⊆ F))).map (fun G =>
         mulP (nonaug_x M G)
           (powP (flatSum (nonaug_x M)
                    ((nonaug_sorted_flats M).filter (fun H => decide (F ⊆ H))))
             (M.rnk F - M.rnk G))))

/-- Claim C2: the generator list said to be built by
`ChowRingIdeal_nonaug.__init__`: one monomial per incomparable pair plus,
for each atom `a`, the sum of `x_F` over the enumerated flats containing
`a`. -/
def spec_nonaug_gens (M : MData) : List ZPoly :=
  (incompPairs (nonaug_flats M)).map
    (fun pr => mulP (nonaug_x M pr.1) (nonaug_x M pr.2))
  ++ (M.flatsOf 1).map (fun a =>
       flatSum (nonaug_x M) ((nonaug_flats M).filter (fun F => decide (a ⊆ F))))

/-- Claim C3: membership in the four generator families said to be
registered by `AugmentedChowRingIdeal_fy.__init__`. -/
def fyGensFamily (M : MData) (p : ZPoly) : Prop :=
  (∃ F ∈ fy_flats M, ∃ G ∈ fy_flats M,
      (¬ F ⊆ G ∧ ¬ G ⊆ F) ∧ p = mulP (fy_x M F) (fy_x M G))
  ∨ (∃ e ∈ M.E, ∃ F ∈ fy_flats M, e ∉ F ∧ p = mulP (fy_y M e) (fy_x M F))
  ∨ p = flatSum (fy_x M) (fy_flats M)
  ∨ (∃ e ∈ M.E, p = addP (fy_y M e) (flatSum (fy_x M) (fy_containing M e)))

/-- Claim C4: the sum `term_i = Σ_{H ∋ i} x_H` of the specification. -/
def spec_fy_term (M : MData) (i : ℕ) : ZPoly :=
  flatSum (fy_x M) (fy_containing M i)

/-- Claim C4: the order-filter sum `term1_G = Σ_{H ≥ G} x_H` of the
specification. -/
def spec_fy_term1 (M : MData) (G : Finset ℕ) : ZPoly :=
  flatSum (fy_x M) ((fy_flats M).filter (fun H => decide (G ⊆ H)))

/-- Claim C4: membership in the four families said to make up the
`AugmentedChowRingIdeal_fy.groebner_basis` output. -/
def fyGBFamily (M : MData) (p : ZPoly) : Prop :=
  (∃ F ∈ fy_flats M, ∃ G ∈ fy_flats M,
      (¬ F ⊆ G ∧ ¬ G ⊆ F) ∧ p = mulP (fy_x M F) (fy_x M G))
  ∨ (∃ i ∈ M.E, spec_fy_term M i ≠ zeroP ∧ p = addP (fy_y M i) (spec_fy_term M i))
  ∨ (∃ G ∈ fy_flats M, spec_fy_term1 M G ≠ zeroP ∧
      p = powP (spec_fy_term1 M G) (M.rnk G + 1))
  ∨ (∃ F ∈ fy_flats M, ∃ G ∈ fy_flats M, F ⊂ G ∧ spec_fy_term1 M G ≠ zeroP ∧
      p = mulP (fy_x M F) (powP (spec_fy_term1 M G) (M.rnk G - M.rnk F)))

/-- Claim C5: the strict order-ideal sum `down(F) = Σ_{H < F} x_H` of the
specification. -/
def spec_af_down (M : MData) (F : Finset ℕ) : ZPoly :=
  flatSum (af_x M) ((af_flats M).filter (fun H => decide (H ⊂ F)))

/-- Claim C5: membership in the three families said to make up the
`AugmentedChowRingIdeal_atom_free.groebner_basis` output. -/
def afGBFamily (M : MData) (p : ZPoly) : Prop :=
  (∃ F ∈ af_flats M, ∃ G ∈ af_flats M,
      (¬ F ⊆ G ∧ ¬ G ⊆ F) ∧ p = mulP (af_x M F) (af_x M G))
  ∨ (∃ F ∈ af_flats M, ∃ G ∈ af_flats M, F ⊂ G ∧ spec_af_down M F ≠ zeroP ∧
      p = mulP (af_x M F) (powP (spec_af_down M F) (M.rnk G - M.rnk F)))
  ∨ (∃ F ∈ af_flats M, p = addP (powP (spec_af_down M F) (M.rnk F)) oneP)

/-- Claim C6: the sum `S_e = Σ_{H ∋ e} x_H` of the specification. -/
def spec_af_S (M : MData) (e : ℕ) : ZPoly :=
  flatSum (af_x M) (af_containing M e)

/-- Claim C6: membership in the three generator families said to make up
the `AugmentedChowRingIdeal_atom_free._gens_constructor` output. -/
def afGensFamily (M : MData) (p : ZPoly) : Prop :=
  (∃ F ∈ af_flats M, ∃ G ∈ af_flats M,
      (¬ F ⊆ G ∧ ¬ G ⊆ F) ∧ p = mulP (af_x M F) (af_x M G))
  ∨ (∃ F ∈ af_flats M, ∃ e ∈ M.E, e ∉ F ∧ p = mulP (af_x M F) (spec_af_S M e))
  ∨ (∃ e ∈ M.E, p = powP (spec_af_S M e) 2)


theorem nil_addP (q : ZPoly) : addP [] q = q := rfl

theorem addP_cons (a : Mon × ℤ) (p q : ZPoly) :
    addP (a :: p) q = insertTerm a.1 a.2 (addP p q) := rfl

theorem addP_single (a : Mon × ℤ) (q : ZPoly) :
    addP [a] q = insertTerm a.1 a.2 q := rfl

theorem insertTerm_nil (m : Mon) (c : ℤ) : insertTerm m c [] = [(m, c)] := rfl

theorem monCmp_eq_iff (m n : Mon) : monCmp m n = .eq ↔ m = n := by
  induction m, n using monCmp.induct with
  | case1 => simp [monCmp]
  | case2 b bs => simp [monCmp]
  | case3 a as => simp [monCmp]
  | case4 a as b bs h => simp [monCmp, h]; omega
  | case5 a as b bs h1 h2 => simp [monCmp, h1, h2]; omega
  | case6 a as b bs h1 h2 ih =>
    have hab : a = b := by omega
    subst hab
    simp [monCmp, h1, ih]

theorem coeff_nil (t : Mon) : coeff [] t = 0 := rfl

theorem coeff_cons (a : Mon × ℤ) (r : ZPoly) (t : Mon) :
    coeff (a :: r) t = (if a.1 = t then a.2 else 0) + coeff r t := by
  simp [coeff]

theorem coeff_insertTerm (m : Mon) (c : ℤ) (q : ZPoly) (t : Mon) :
    coeff (insertTerm m c q) t = (if m = t then c else 0) + coeff q t := by
  induction q with
  | nil => simp [insertTerm_nil, coeff]
  | cons b q ih =>
    obtain ⟨n, d⟩ := b
    cases hc : monCmp m n with
    | lt =>
      rw [insertTerm]
      simp only [hc]
      rw [coeff_cons]
    | gt =>
      rw [insertTerm]
      simp only [hc]
      rw [coeff_cons, ih, coeff_cons]
      ring
    | eq =>
      have hm : m = n := (monCmp_eq_iff m n).mp hc
      subst hm
      rw [insertTerm]
      simp only [hc]
      split
      · rename_i hcd
        rw [coeff_cons]
        split
        · omega
        · omega
      · rw [coeff_cons, coeff_cons]
        split
        · omega
        · omega

theorem coeff_addP (p q : ZPoly) (t : Mon) :
    coeff (addP p q) t = coeff p t + coeff q t := by
  induction p with
  | nil => rw [nil_addP, coeff_nil]; ring
  | cons a p ih =>
    rw [addP_cons, coeff_insertTerm, ih, coeff_cons]
    ring

theorem evalP_nil (σ : ℕ → ℤ) : evalP σ [] = 0 := rfl

theorem evalP_cons (σ : ℕ → ℤ) (a : Mon × ℤ) (r : ZPoly) :
    evalP σ (a :: r) = a.2 * evalMon σ a.1 + evalP σ r := by
  simp [evalP]

theorem evalP_insertTerm (σ : ℕ → ℤ) (m : Mon) (c : ℤ) (q : ZPoly) :
    evalP σ (insertTerm m c q) = c * evalMon σ m + evalP σ q := by
  induction q with
  | nil => simp [insertTerm_nil, evalP]
  | cons b q ih =>
    obtain ⟨n, d⟩ := b
    cases hc : monCmp m n with
    | lt =>
      rw [insertTerm]
      simp only [hc, evalP_cons]
    | gt =>
      rw [insertTerm]
      simp only [hc]
      rw [evalP_cons, ih, evalP_cons]
      ring
    | eq =>
      have hm : m = n := (monCmp_eq_iff m n).mp hc
      subst hm
      rw [insertTerm]
      simp only [hc]
      split
      · rename_i hcd
        rw [evalP_cons]
        have h0 : (c + d) * evalMon σ m = 0 := by rw [hcd]; ring
        nlinarith [h0]
      · rw [evalP_cons, evalP_cons]
        ring

theorem evalP_addP (σ : ℕ → ℤ) (p q : ZPoly) :
    evalP σ (addP p q) = evalP σ p + evalP σ q := by
  induction p with
  | nil => rw [nil_addP, evalP_nil]; ring
  | cons a p ih =>
    rw [addP_cons, evalP_insertTerm, ih, evalP_cons]
    ring

theorem evalMon_nil (σ : ℕ → ℤ) : evalMon σ [] = 1 := rfl

theorem evalMon_cons (σ : ℕ → ℤ) (v : ℕ) (m : Mon) :
    evalMon σ (v :: m) = σ v * evalMon σ m := rfl

theorem evalMon_insertVar (σ : ℕ → ℤ) (v : ℕ) (n : Mon) :
    evalMon σ (insertVar v n) = σ v * evalMon σ n := by
  induction n with
  | nil => rw [insertVar, evalMon_cons, evalMon_nil]
  | cons u m ih =>
    rw [insertVar]
    split
    · rw [evalMon_cons]
    · rw [evalMon_cons, ih, evalMon_cons]
      ring

theorem evalMon_monMul (σ : ℕ → ℤ) (a b : Mon) :
    evalMon σ (monMul a b) = evalMon σ a * evalMon σ b := by
  induction a with
  | nil => rw [monMul, List.foldr_nil, evalMon_nil]; ring
  | cons v m ih =>
    rw [monMul, List.foldr_cons]
    rw [monMul] at ih
    rw [evalMon_insertVar, ih, evalMon_cons]
    ring

theorem termMul_nil (m : Mon) (c : ℤ) : termMul m c [] = [] := rfl

theorem termMul_cons (m : Mon) (c : ℤ) (b : Mon × ℤ) (q : ZPoly) :
    termMul m c (b :: q) = addP [(monMul m b.1, c * b.2)] (termMul m c q) := rfl

theorem evalP_single (σ : ℕ → ℤ) (m : Mon) (c : ℤ) :
    evalP σ [(m, c)] = c * evalMon σ m := by
  simp [evalP]

theorem evalP_termMul (σ : ℕ → ℤ) (m : Mon) (c : ℤ) (q : ZPoly) :
    evalP σ (termMul m c q) = c * evalMon σ m * evalP σ q := by
  induction q with
  | nil => simp [termMul_nil, evalP_nil]
  | cons b q ih =>
    rw [termMul_cons, evalP_addP, ih, evalP_single, evalMon_monMul, evalP_cons]
    ring

theorem mulP_nil (q : ZPoly) : mulP [] q = [] := rfl

theorem mulP_cons (a : Mon × ℤ) (p q : ZPoly) :
    mulP (a :: p) q = addP (termMul a.1 a.2 q) (mulP p q) := rfl

theorem evalP_mulP (σ : ℕ → ℤ) (p q : ZPoly) :
    evalP σ (mulP p q) = evalP σ p * evalP σ q := by
  induction p with
  | nil => simp [mulP_nil, evalP_nil]
  | cons a p ih =>
    rw [mulP_cons, evalP_addP, evalP_termMul, ih, evalP_cons]
    ring

theorem inSpan_evalP_zero (σ : ℕ → ℤ) (gens : List ZPoly)
    (hg : ∀ g ∈ gens, evalP σ g = 0) (p : ZPoly) (h : InSpan gens p) :
    evalP σ p = 0 := by
  induction h with
  | zero => rfl
  | step p q g hp hg2 ih =>
    rw [evalP_addP, evalP_mulP, hg g hg2, ih]
    ring

theorem coeff_single (m : Mon) (c : ℤ) (t : Mon) :
    coeff [(m, c)] t = if m = t then c else 0 := by
  simp [coeff]

theorem coeff_termMul (m : Mon) (c : ℤ) (q : ZPoly) (t : Mon) :
    coeff (termMul m c q) t
      = (q.map (fun b => if monMul m b.1 = t then c * b.2 else 0)).sum := by
  induction q with
  | nil => simp [termMul_nil, coeff_nil]
  | cons b q ih =>
    rw [termMul_cons, coeff_addP, ih, coeff_single]
    simp

theorem coeff_mulP (p q : ZPoly) (t : Mon) :
    coeff (mulP p q) t
      = (p.map (fun a =>
          (q.map (fun b => if monMul a.1 b.1 = t then a.2 * b.2 else 0)).sum)).sum := by
  induction p with
  | nil => simp [mulP_nil, coeff_nil]
  | cons a p ih =>
    rw [mulP_cons, coeff_addP, coeff_termMul, ih]
    simp

theorem monMul_nil_left (n : Mon) : monMul [] n = n := rfl

theorem insertVar_front (v : ℕ) (m : Mon) (h : ∀ u ∈ m.head?, v ≤ u) :
    insertVar v m = v :: m := by
  cases m with
  | nil => rfl
  | cons u t =>
    rw [insertVar, if_pos (h u rfl)]

theorem monMul_nil_right (m : Mon) (h : m.Chain' (· ≤ ·)) : monMul m [] = m := by
  induction m with
  | nil => rfl
  | cons v t ih =>
    rw [monMul, List.foldr_cons]
    rw [monMul] at ih
    rw [ih (List.chain'_cons'.mp h).2]
    apply insertVar_front
    intro u hu
    exact (List.chain'_cons'.mp h).1 u hu

theorem monMul_single (a b : ℕ) :
    monMul [a] [b] = if a ≤ b then [a, b] else [b, a] := by
  show insertVar a [b] = _
  rw [insertVar]
  split
  · rfl
  · rfl

theorem monMul_single_eq_pair (a b v : ℕ) :
    monMul [a] [b] = [v, v] ↔ a = v ∧ b = v := by
  rw [monMul_single]
  split
  · simp
  · constructor
    · intro h
      injection h with h1 h2
      injection h2 with h2 _
      omega
    · intro h
      omega

theorem mulP_single_single (a b : ℕ) :
    mulP (xv a) (xv b) = [(monMul [a] [b], 1)] := by
  show addP (termMul [a] 1 [([b], 1)]) (mulP [] (xv b)) = _
  rw [mulP_nil, termMul_cons, termMul_nil]
  show insertTerm (monMul [a] [b]) (1 * 1) [] = _
  rw [insertTerm_nil]
  norm_num

theorem mulP_one_xv (a : ℕ) : mulP oneP (xv a) = xv a := by
  show addP (termMul [] 1 [([a], 1)]) (mulP [] (xv a)) = _
  rw [mulP_nil, termMul_cons, termMul_nil]
  show insertTerm (monMul [] [a]) (1 * 1) [] = _
  rw [insertTerm_nil, monMul_nil_left]
  norm_num [xv]

theorem insertTerm_front (m : Mon) (c : ℤ) (r : ZPoly)
    (h : ∀ b ∈ r.head?, monCmp m b.1 = .lt) :
    insertTerm m c r = (m, c) :: r := by
  cases r with
  | nil => rfl
  | cons b rest =>
    obtain ⟨n, d⟩ := b
    have hlt : monCmp m n = .lt := h (n, d) rfl
    rw [insertTerm]
    simp only [hlt]

theorem addP_single_canon (a : Mon × ℤ) (r : ZPoly)
    (h : ∀ b ∈ r.head?, monCmp a.1 b.1 = .lt) :
    addP [a] r = a :: r := by
  rw [addP_single]
  exact insertTerm_front a.1 a.2 r h

theorem addP_nil_canon (p : ZPoly)
    (h : p.Chain' (fun a b => monCmp a.1 b.1 = .lt)) : addP p [] = p := by
  induction p with
  | nil => rfl
  | cons a r ih =>
    rw [addP_cons, ih (List.chain'_cons'.mp h).2]
    exact insertTerm_front a.1 a.2 r (List.chain'_cons'.mp h).1

theorem termMul_one_right (m : Mon) (c : ℤ) (hm : m.Chain' (· ≤ ·)) :
    termMul m c oneP = [(m, c)] := by
  rw [oneP, termMul_cons, termMul_nil]
  show insertTerm (monMul m []) (c * 1) [] = _
  rw [insertTerm_nil, monMul_nil_right m hm]
  norm_num

theorem mulP_oneP_right (p : ZPoly) (h : IsCanon p) : mulP p oneP = p := by
  induction p with
  | nil => rfl
  | cons a r ih =>
    have hcanon : IsCanon r :=
      ⟨(List.chain'_cons'.mp h.1).2, fun t ht => h.2 t (by simp [ht])⟩
    rw [mulP_cons, ih hcanon, termMul_one_right a.1 a.2 (h.2 a (by simp))]
    exact addP_single_canon a r (List.chain'_cons'.mp h.1).1

theorem termMul_one_left_canon (p : ZPoly)
    (h : p.Chain' (fun a b => monCmp a.1 b.1 = .lt)) : termMul [] 1 p = p := by
  induction p with
  | nil => rfl
  | cons a r ih =>
    rw [termMul_cons, ih (List.chain'_cons'.mp h).2, addP_single]
    have : insertTerm (monMul [] a.1) (1 * a.2) r = insertTerm a.1 a.2 r := by
      rw [monMul_nil_left]
      norm_num
    rw [this]
    exact insertTerm_front a.1 a.2 r (List.chain'_cons'.mp h).1

theorem mulP_oneP_left (p : ZPoly) (h : IsCanon p) : mulP oneP p = p := by
  show addP (termMul [] 1 p) (mulP [] p) = p
  rw [mulP_nil, termMul_one_left_canon p h.1, addP_nil_canon p h.1]

theorem addP_append_big (jl : List ℕ) (v : ℕ) (c : ℤ)
    (hsort : jl.Pairwise (· < ·)) (h : ∀ u ∈ jl, u < v) :
    addP (jl.map (fun u => ([u], (1 : ℤ)))) [([v], c)]
      = jl.map (fun u => ([u], (1 : ℤ))) ++ [([v], c)] := by
  induction jl with
  | nil => rw [List.map_nil, nil_addP]; rfl
  | cons u rest ih =>
    rw [List.map_cons, addP_cons, ih (List.pairwise_cons.mp hsort).2
      (fun w hw => h w (by simp [hw]))]
    apply insertTerm_front
    intro b hb
    cases rest with
    | nil =>
      simp only [List.map_nil, List.nil_append, List.head?_cons,
        Option.mem_def, Option.some.injEq] at hb
      rw [← hb, monCmp]
      simp [h u (by simp)]
    | cons w t =>
      simp only [List.map_cons, List.cons_append, List.head?_cons,
        Option.mem_def, Option.some.injEq] at hb
      rw [← hb, monCmp]
      have : u < w := (List.pairwise_cons.mp hsort).1 w (by simp)
      simp [this]

theorem sumVars_rep (il : List ℕ) (h : il.Pairwise (· < ·)) :
    (il.map xv).foldl addP zeroP = il.map (fun u => ([u], (1 : ℤ))) := by
  induction il using List.reverseRecOn with
  | nil => rfl
  | append_singleton il v ih =>
    have hp : il.Pairwise (· < ·) := (List.pairwise_append.mp h).1
    have hlt : ∀ u ∈ il, u < v := by
      intro u hu
      exact (List.pairwise_append.mp h).2.2 u hu v (by simp)
    rw [List.map_append, List.foldl_append, ih hp]
    simp only [List.map_cons, List.map_nil, List.foldl_cons, List.foldl_nil]
    rw [List.map_append]
    exact addP_append_big il v 1 hp hlt

theorem sumVars_canon (il : List ℕ) (h : il.Pairwise (· < ·)) :
    IsCanon ((il.map xv).foldl addP zeroP) := by
  rw [sumVars_rep il h]
  constructor
  · rw [List.chain'_map]
    refine List.Pairwise.chain' ?_
    refine h.imp ?_
    intro a b hab
    rw [monCmp]
    simp [hab]
  · intro t ht
    obtain ⟨u, _, rfl⟩ := List.mem_map.mp ht
    exact List.chain'_singleton u

theorem foldl_guard_filter {α : Type} (P : α → Prop) [DecidablePred P]
    (f : α → ZPoly) (l : List α) (a : ZPoly) :
    l.foldl (fun t H => if P H then addP t (f H) else t) a
      = (l.filter (fun H => decide (P H))).foldl (fun t H => addP t (f H)) a := by
  induction l generalizing a with
  | nil => rfl
  | cons b rest ih =>
    by_cases hb : P b
    · rw [List.foldl_cons, if_pos hb, List.filter_cons_of_pos (by simpa using hb),
        List.foldl_cons, ih]
    · rw [List.foldl_cons, if_neg hb, List.filter_cons_of_neg (by simpa using hb), ih]

theorem foldl_addP_map {α : Type} (f : α → ZPoly) (l : List α) (a : ZPoly) :
    l.foldl (fun t H => addP t (f H)) a = (l.map f).foldl addP a := by
  induction l generalizing a with
  | nil => rfl
  | cons b rest ih =>
    simp only [List.foldl_cons, List.map_cons]
    rw [ih]

theorem foldl_guard_sum {α : Type} (P : α → Prop) [DecidablePred P]
    (f : α → ZPoly) (l : List α) :
    l.foldl (fun t H => if P H then addP t (f H) else t) zeroP
      = sumPolys ((l.filter (fun H => decide (P H))).map f) := by
  rw [foldl_guard_filter, foldl_addP_map, sumPolys]

theorem idxOf_lt_length [DecidableEq α] {l : List α} {a : α} (h : a ∈ l) :
    idxOf l a < l.length := by
  induction l with
  | nil => cases h
  | cons b rest ih =>
    rw [idxOf]
    split
    · simp
    · have : a ∈ rest := by
        rcases List.mem_cons.mp h with h1 | h1
        · exact absurd h1.symm (by assumption)
        · exact h1
      simpa using ih this

theorem idxOf_getElem [DecidableEq α] {l : List α} (hN : l.Nodup)
    (i : ℕ) (hi : i < l.length) : idxOf l l[i] = i := by
  induction l generalizing i with
  | nil => simp at hi
  | cons b rest ih =>
    cases i with
    | zero => simp [idxOf]
    | succ j =>
      have hb : b ∉ rest := (List.nodup_cons.mp hN).1
      have hj : j < rest.length := by simpa using hi
      have hmem : rest[j] ∈ rest := List.getElem_mem hj
      have hne : b ≠ rest[j] := by
        intro h
        exact hb (h ▸ hmem)
      have : (b :: rest)[j + 1] = rest[j] := by simp
      rw [this, idxOf, if_neg hne, ih (List.nodup_cons.mp hN).2 j hj]

theorem idxOf_inj [DecidableEq α] {l : List α} (hN : l.Nodup) {a b : α}
    (ha : a ∈ l) (hb : b ∈ l) (h : idxOf l a = idxOf l b) : a = b := by
  induction l with
  | nil => cases ha
  | cons c rest ih =>
    rw [idxOf, idxOf] at h
    by_cases hca : c = a
    · by_cases hcb : c = b
      · exact hca.symm.trans hcb
      · rw [if_pos hca, if_neg hcb] at h
        omega
    · by_cases hcb : c = b
      · rw [if_neg hca, if_pos hcb] at h
        omega
      · rw [if_neg hca, if_neg hcb] at h
        have ha2 : a ∈ rest := by
          rcases List.mem_cons.mp ha with h1 | h1
          · exact absurd h1.symm hca
          · exact h1
        have hb2 : b ∈ rest := by
          rcases List.mem_cons.mp hb with h1 | h1
          · exact absurd h1.symm hcb
          · exact h1
        exact ih (List.nodup_cons.mp hN).2 ha2 hb2 (by omega)

theorem pairwise_idxOf [DecidableEq α] (l : List α) (hN : l.Nodup) :
    l.Pairwise (fun a b => idxOf l a < idxOf l b) := by
  rw [List.pairwise_iff_getElem]
  intro i j hi hj hij
  rw [idxOf_getElem hN i hi, idxOf_getElem hN j hj]
  exact hij

theorem sum_ite_count (il : List ℕ) (v : ℕ) (c : ℤ) :
    (il.map (fun u => if u = v then c else 0)).sum = (il.count v : ℤ) * c := by
  induction il with
  | nil => simp
  | cons u rest ih =>
    rw [List.map_cons, List.sum_cons, ih]
    by_cases hu : u = v
    · subst hu
      rw [if_pos rfl, List.count_cons_self]
      push_cast
      ring
    · rw [if_neg hu, List.count_cons_of_ne (fun h => hu h.symm)]
      ring

theorem count_singleton_ne (f v : ℕ) (h : ¬ f = v) : [f].count v = 0 := by
  rw [List.count_eq_zero]
  intro hv
  rcases List.mem_singleton.mp hv with rfl
  exact h rfl

theorem coeff_two_sums_vv (il jl : List ℕ) (v : ℕ) :
    coeff (mulP (il.map (fun u => ([u], (1 : ℤ))))
        (jl.map (fun u => ([u], (1 : ℤ))))) [v, v]
      = (il.count v : ℤ) * (jl.count v : ℤ) := by
  rw [coeff_mulP, List.map_map]
  have h1 : ∀ u1 : ℕ,
      ((jl.map (fun u => ([u], (1 : ℤ)))).map
        (fun b => if monMul [u1] b.1 = [v, v] then (1 : ℤ) * b.2 else 0)).sum
      = if u1 = v then (jl.count v : ℤ) else 0 := by
    intro u1
    rw [List.map_map]
    by_cases hu : u1 = v
    · rw [if_pos hu]
      have he : ((fun b : Mon × ℤ => if monMul [u1] b.1 = [v, v] then (1 : ℤ) * b.2 else 0)
          ∘ (fun u : ℕ => ([u], (1 : ℤ)))) = fun u => if u = v then (1 : ℤ) else 0 := by
        funext u
        simp only [Function.comp_apply, monMul_single_eq_pair]
        by_cases huv : u = v
        · rw [if_pos ⟨hu, huv⟩, if_pos huv]
          ring
        · rw [if_neg (fun h => huv h.2), if_neg huv]
      rw [he, sum_ite_count]
      ring
    · rw [if_neg hu]
      apply List.sum_eq_zero
      intro x hx
      obtain ⟨u2, _, hu2⟩ := List.mem_map.mp hx
      simp only [Function.comp_apply, monMul_single_eq_pair] at hu2
      rw [← hu2, if_neg (fun h => hu h.1)]
  have he2 : ((fun a : Mon × ℤ =>
      ((jl.map (fun u => ([u], (1 : ℤ)))).map
        (fun b => if monMul a.1 b.1 = [v, v] then a.2 * b.2 else 0)).sum)
      ∘ (fun u : ℕ => ([u], (1 : ℤ))))
      = fun u1 => if u1 = v then (jl.count v : ℤ) else 0 := by
    funext u1
    simp only [Function.comp_apply]
    rw [← h1 u1]
  rw [he2, sum_ite_count]

theorem coeff_x_sum_vv (f : ℕ) (jl : List ℕ) (v : ℕ) :
    coeff (mulP (xv f) (jl.map (fun u => ([u], (1 : ℤ))))) [v, v]
      = if f = v then (jl.count v : ℤ) else 0 := by
  have h0 : xv f = [f].map (fun u => ([u], (1 : ℤ))) := rfl
  rw [h0, coeff_two_sums_vv]
  by_cases hf : f = v
  · subst hf
    rw [if_pos rfl, List.count_singleton]
    simp
  · rw [if_neg hf, count_singleton_ne f v hf]
    simp

theorem coeff_xx_vv (f g v : ℕ) :
    coeff (mulP (xv f) (xv g)) [v, v] = if f = v ∧ g = v then 1 else 0 := by
  have h1 : xv f = [f].map (fun u => ([u], (1 : ℤ))) := rfl
  have h2 : xv g = [g].map (fun u => ([u], (1 : ℤ))) := rfl
  rw [h1, h2, coeff_two_sums_vv]
  by_cases hf : f = v
  · by_cases hg : g = v
    · subst hf
      subst hg
      rw [if_pos ⟨rfl, rfl⟩, List.count_singleton]
      simp
    · rw [if_neg (fun h => hg h.2), count_singleton_ne g v hg]
      push_cast
      ring
  · rw [if_neg (fun h => hf h.1), count_singleton_ne f v hf]
    push_cast
    ring

/-! ## Bridges between the code-side accumulators and the claim-side sums -/

theorem nonaug_term_eq (M : MData) (F : Finset ℕ) :
    nonaug_term M F = flatSum (nonaug_x M) (nonaug_order_filter M F) := by
  rw [nonaug_term, foldl_addP_map, flatSum, sumPolys]

theorem fy_total_eq (M : MData) :
    fy_total M = flatSum (fy_x M) (fy_flats M) := by
  rw [fy_total, foldl_addP_map, flatSum, sumPolys]

theorem filter_mem_filter {α : Type} [DecidableEq α] (l : List α) (q : α → Bool) :
    l.filter (fun a => decide (a ∈ l.filter q)) = l.filter q := by
  apply List.filter_congr
  intro a ha
  by_cases hq : q a = true
  · simp [List.mem_filter, ha, hq]
  · simp [List.mem_filter, hq]

theorem fy_elem_term_eq (M : MData) (e : ℕ) :
    fy_elem_term M e = flatSum (fy_x M) (fy_containing M e) := by
  rw [fy_elem_term, foldl_guard_filter, foldl_addP_map, flatSum, sumPolys]
  congr 2
  exact filter_mem_filter (fy_flats M) (fun F => decide (e ∈ F))

theorem fy_gb_term_eq (M : MData) (i : ℕ) :
    fy_gb_term M i = spec_fy_term M i := by
  rw [fy_gb_term, foldl_guard_sum, spec_fy_term, flatSum]
  rfl

theorem fy_gb_term1_eq (M : MData) (G : Finset ℕ) :
    fy_gb_term1 M G = spec_fy_term1 M G := by
  rw [fy_gb_term1, foldl_guard_sum, spec_fy_term1, flatSum]

theorem af_down_eq (M : MData) (F : Finset ℕ) :
    af_down M F = spec_af_down M F := by
  rw [af_down, foldl_guard_sum, spec_af_down, flatSum]

theorem af_elem_term_eq (M : MData) (e : ℕ) :
    af_elem_term M e = spec_af_S M e := by
  rw [af_elem_term, foldl_addP_map, spec_af_S, flatSum, sumPolys]

theorem nonaug_pair_term_eq (M : MData) (pr : Finset ℕ × Finset ℕ) :
    nonaug_pair_term M pr = mulP (nonaug_x M pr.1) (nonaug_x M pr.2) := by
  rw [nonaug_pair_term, nonaug_x, mulP_one_xv]

theorem dedupFirst_eq_self [DecidableEq α] (l : List α) (h : l.Nodup) :
    dedupFirst l = l := by
  induction l with
  | nil => rfl
  | cons a t ih =>
    rw [dedupFirst, ih (List.nodup_cons.mp h).2]
    congr 1
    apply List.filter_eq_self.mpr
    intro b hb
    simp only [ne_eq, decide_not, Bool.not_eq_eq_eq_not, Bool.not_true,
      decide_eq_false_iff_not]
    intro h2
    exact (List.nodup_cons.mp h).1 (h2 ▸ hb)

theorem atom_table_point (M : MData) (l : List (Finset ℕ))
    (tbl : Finset ℕ → ZPoly) (a : Finset ℕ)
    (ha : a ∈ dedupFirst (nonaug_atoms M)) :
    (l.foldl
      (fun tbl F => fun b =>
        if b ∈ dedupFirst (nonaug_atoms M) ∧ b ⊆ F then addP (tbl b) (nonaug_x M F)
        else tbl b)
      tbl) a
    = l.foldl (fun t F => if a ⊆ F then addP t (nonaug_x M F) else t) (tbl a) := by
  induction l generalizing tbl with
  | nil => rfl
  | cons F rest ih =>
    rw [List.foldl_cons, List.foldl_cons, ih]
    congr 1
    by_cases hsub : a ⊆ F
    · rw [if_pos ⟨ha, hsub⟩, if_pos hsub]
    · rw [if_neg (fun h => hsub h.2), if_neg hsub]

theorem nonaug_atom_gen_eq (M : MData) (a : Finset ℕ)
    (ha : a ∈ dedupFirst (nonaug_atoms M)) :
    nonaug_atom_table M a
      = flatSum (nonaug_x M) ((nonaug_flats M).filter (fun F => decide (a ⊆ F))) := by
  rw [nonaug_atom_table, atom_table_point M _ _ a ha]
  exact foldl_guard_sum (fun F => a ⊆ F) (nonaug_x M) (nonaug_flats M)

theorem incomp_cond_iff (F G : Finset ℕ) :
    ¬ (F ⊆ G ∨ G ⊂ F) ↔ (¬ F ⊆ G ∧ ¬ G ⊆ F) := by
  rw [ssubset_iff_subset_not_subset]
  tauto

theorem incomp_cond_iff2 (F G : Finset ℕ) :
    ¬ (G ⊆ F ∨ F ⊂ G) ↔ (¬ F ⊆ G ∧ ¬ G ⊆ F) := by
  rw [ssubset_iff_subset_not_subset]
  tauto

theorem mem_fy_containing (M : MData) (x : ℕ) (F : Finset ℕ) :
    F ∈ fy_containing M x ↔ F ∈ fy_flats M ∧ x ∈ F := by
  rw [fy_containing]
  simp [List.mem_filter]

theorem mem_af_containing (M : MData) (x : ℕ) (F : Finset ℕ) :
    F ∈ af_containing M x ↔ F ∈ af_flats M ∧ x ∈ F := by
  rw [af_containing]
  simp [List.mem_filter]

/-- C1: for every matroid, `ChowRingIdeal_nonaug.groebner_basis` with the
default algorithm returns the sequence consisting of the monomial
`x_F * x_G` for every incomparable pair of flats, followed by, for every
non-empty flat `F` taken in order of increasing size and every flat
`G ≤ F` (including `G = F`), the polynomial
`x_G * (Σ_{H ≥ F} x_H) ^ (rank F - rank G)`. -/
theorem nonaug_groebner_basis_closed_form (M : MData) :
    nonaug_groebner_basis M = spec_nonaug_gb M := by
  have hpair : (incompPairs (nonaug_sorted_flats M)).map (nonaug_pair_term M)
      = (incompPairs (nonaug_sorted_flats M)).map
          (fun pr => mulP (nonaug_x M pr.1) (nonaug_x M pr.2)) := by
    apply List.map_congr_left
    intro pr _
    exact nonaug_pair_term_eq M pr
  rw [nonaug_groebner_basis, spec_nonaug_gb, hpair]
  simp only [nonaug_term_eq, nonaug_order_filter, nonaug_order_ideal]

/-- C2: for every matroid with distinct atoms, `ChowRingIdeal_nonaug.__init__`
enumerates exactly the flats of rank 1 through `rank(M)` and builds the
generator list consisting of one monomial `x_F * x_G` per incomparable
pair (each unordered pair once) plus, for each atom `a` of the lattice of
flats, one linear generator equal to the sum of `x_F` over the enumerated
flats containing `a`. -/
theorem nonaug_gens_constructor_description (M : MData)
    (hatoms : (M.flatsOf 1).Nodup) :
    nonaug_gens_constructor M = spec_nonaug_gens M
    ∧ (∀ F, F ∈ nonaug_flats M ↔ ∃ i, 1 ≤ i ∧ i ≤ M.rk ∧ F ∈ M.flatsOf i) := by
  constructor
  · have hd : dedupFirst (nonaug_atoms M) = M.flatsOf 1 :=
      dedupFirst_eq_self (M.flatsOf 1) hatoms
    have h2 : (dedupFirst (nonaug_atoms M)).map (nonaug_atom_table M)
        = (M.flatsOf 1).map (fun a =>
            flatSum (nonaug_x M)
              ((nonaug_flats M).filter (fun F => decide (a ⊆ F)))) := by
      rw [hd]
      apply List.map_congr_left
      intro a ha
      exact nonaug_atom_gen_eq M a (by rw [hd]; exact ha)
    rw [nonaug_gens_constructor, spec_nonaug_gens, h2]
    congr 1
  · intro F
    rw [nonaug_flats, List.mem_flatMap]
    constructor
    · rintro ⟨i, hi, hF⟩
      exact ⟨i + 1, by omega, by
        have := List.mem_range.mp hi
        omega, hF⟩
    · rintro ⟨i, h1, h2, hF⟩
      refine ⟨i - 1, List.mem_range.mpr (by omega), ?_⟩
      have : i - 1 + 1 = i := by omega
      rw [this]
      exact hF

theorem nonaug_gens_constructor_description_witness :
    (U23.flatsOf 1).Nodup
    ∧ (nonaug_gens_constructor U23 = spec_nonaug_gens U23
       ∧ (∀ F, F ∈ nonaug_flats U23 ↔ ∃ i, 1 ≤ i ∧ i ≤ U23.rk ∧ F ∈ U23.flatsOf i)) :=
  ⟨by decide, nonaug_gens_constructor_description U23 (by decide)⟩

/-- C3: for every matroid, `AugmentedChowRingIdeal_fy.__init__` enumerates
the flats of rank 0 through `rank(M)` and registers exactly these
generators: `x_F * x_G` for every incomparable pair of flats, `y_e * x_F`
for every groundset element `e` and flat `F` not containing `e`, one
generator equal to the sum of all flat indeterminates, and for every
groundset element `e` the linear generator `y_e + Σ_{F ∋ e} x_F`. -/
theorem fy_gens_constructor_description (M : MData) :
    (∀ p : ZPoly, p ∈ fy_gens_constructor M ↔ fyGensFamily M p)
    ∧ (∀ F, F ∈ fy_flats M ↔ ∃ i, i ≤ M.rk ∧ F ∈ M.flatsOf i) := by
  constructor
  · intro p
    rw [fy_gens_constructor, fyGensFamily]
    simp only [List.mem_append, List.mem_flatMap, List.mem_map, List.mem_filter,
      List.mem_cons, decide_eq_true_eq]
    constructor
    · rintro ((⟨F, hF, G, ⟨hG, hcond⟩, rfl⟩ | ⟨x, hx, F, ⟨hF, hcond⟩, rfl⟩)
        | (h | ⟨x, hx, rfl⟩))
      · exact Or.inl ⟨F, hF, G, hG, (incomp_cond_iff F G).mp hcond, rfl⟩
      · refine Or.inr (Or.inl ⟨x, hx, F, hF, ?_, rfl⟩)
        intro hxF
        exact hcond ((mem_fy_containing M x F).mpr ⟨hF, hxF⟩)
      · exact Or.inr (Or.inr (Or.inl (h ▸ fy_total_eq M)))
      · exact Or.inr (Or.inr (Or.inr ⟨x, hx, by rw [fy_elem_term_eq]⟩))
    · rintro (⟨F, hF, G, hG, hinc, rfl⟩ | ⟨e, he, F, hF, hnot, rfl⟩ | rfl
        | ⟨e, he, rfl⟩)
      · exact Or.inl (Or.inl ⟨F, hF, G, ⟨hG, (incomp_cond_iff F G).mpr hinc⟩, rfl⟩)
      · refine Or.inl (Or.inr ⟨e, he, F, ⟨hF, ?_⟩, rfl⟩)
        intro hmem
        exact hnot ((mem_fy_containing M e F).mp hmem).2
      · exact Or.inr (Or.inl (fy_total_eq M).symm)
      · exact Or.inr (Or.inr ⟨e, he, (by rw [fy_elem_term_eq] : addP (fy_y M e) (fy_elem_term M e) = _)⟩)
  · intro F
    rw [fy_flats, List.mem_flatMap]
    constructor
    · rintro ⟨i, hi, hF⟩
      exact ⟨i, by
        have := List.mem_range.mp hi
        omega, hF⟩
    · rintro ⟨i, h1, hF⟩
      exact ⟨i, List.mem_range.mpr (by omega), hF⟩

/-- C5: for every matroid, the set of polynomials in the sequence returned
by `AugmentedChowRingIdeal_atom_free.groebner_basis` with the default
algorithm equals the union of: `x_F * x_G` for every incomparable pair of
non-empty flats; `x_F * down(F) ^ (rank G - rank F)` for every nested pair
`F < G` with `down(F)` nonzero; and, for every non-empty flat `F`, the
literal polynomial `down(F) ^ rank(F) + 1`. -/
theorem af_groebner_basis_description (M : MData) :
    ∀ p : ZPoly, p ∈ af_groebner_basis M ↔ afGBFamily M p := by
  intro p
  rw [af_groebner_basis, afGBFamily]
  constructor
  · intro hmem
    obtain ⟨F, hF, hmem⟩ := List.mem_flatMap.mp hmem
    obtain ⟨G, hG, hmem⟩ := List.mem_flatMap.mp hmem
    rcases List.mem_append.mp hmem with h | h
    · by_cases c1 : ¬ (G ⊆ F ∨ F ⊂ G)
      · rw [if_pos c1] at h
        rcases List.mem_singleton.mp h with rfl
        exact Or.inl ⟨F, hF, G, hG, (incomp_cond_iff2 F G).mp c1, rfl⟩
      · rw [if_neg c1] at h
        by_cases c2 : F ⊂ G
        · rw [if_pos c2] at h
          by_cases c3 : af_down M F ≠ zeroP
          · rw [if_pos c3] at h
            rcases List.mem_singleton.mp h with rfl
            refine Or.inr (Or.inl ⟨F, hF, G, hG, c2, ?_, ?_⟩)
            · rw [← af_down_eq]
              exact c3
            · rw [← af_down_eq]
          · rw [if_neg c3] at h
            cases h
        · rw [if_neg c2] at h
          cases h
    · rcases List.mem_singleton.mp h with rfl
      refine Or.inr (Or.inr ⟨F, hF, ?_⟩)
      rw [← af_down_eq]
  · rintro (⟨F, hF, G, hG, hinc, rfl⟩ | ⟨F, hF, G, hG, hss, hne, rfl⟩ | ⟨F, hF, rfl⟩)
    · refine List.mem_flatMap.mpr ⟨F, hF, List.mem_flatMap.mpr ⟨G, hG, ?_⟩⟩
      refine List.mem_append.mpr (Or.inl ?_)
      rw [if_pos ((incomp_cond_iff2 F G).mpr hinc)]
      exact List.mem_singleton.mpr rfl
    · refine List.mem_flatMap.mpr ⟨F, hF, List.mem_flatMap.mpr ⟨G, hG, ?_⟩⟩
      refine List.mem_append.mpr (Or.inl ?_)
      have c1 : ¬ ¬ (G ⊆ F ∨ F ⊂ G) := by
        intro hc
        exact ((incomp_cond_iff2 F G).mp hc).1 hss.subset
      rw [if_neg c1, if_pos hss, if_pos (by rw [af_down_eq]; exact hne), af_down_eq]
      exact List.mem_singleton.mpr rfl
    · refine List.mem_flatMap.mpr ⟨F, hF, List.mem_flatMap.mpr ⟨F, hF, ?_⟩⟩
      refine List.mem_append.mpr (Or.inr ?_)
      rw [af_down_eq]
      exact List.mem_singleton.mpr rfl

theorem spec_fy_term_ne_zero_mem (M : MData) (i : ℕ)
    (h : spec_fy_term M i ≠ zeroP) : ∃ H, H ∈ fy_containing M i := by
  by_contra hc
  push_neg at hc
  have hnil : fy_containing M i = [] := List.eq_nil_iff_forall_not_mem.mpr hc
  apply h
  rw [spec_fy_term, flatSum, hnil]
  rfl

/-- C4 (amended): for every matroid with non-empty groundset, the set of
polynomials returned by `AugmentedChowRingIdeal_fy.groebner_basis` with
the default algorithm equals the union of the four claimed families:
incomparable products `x_F * x_G`, the linear forms `y_i + term_i` for
`term_i` nonzero, the powers `term1_G ^ (rank G + 1)` for `term1_G`
nonzero, and `x_F * term1_G ^ (rank G - rank F)` for nested `G > F` with
`term1_G` nonzero. -/
theorem fy_groebner_basis_description (M : MData) (hE : M.E ≠ []) :
    ∀ p : ZPoly, p ∈ fy_groebner_basis M ↔ fyGBFamily M p := by
  intro p
  rw [fy_groebner_basis, fyGBFamily]
  constructor
  · intro hmem
    obtain ⟨F, hF, hmem⟩ := List.mem_flatMap.mp hmem
    obtain ⟨G, hG, hmem⟩ := List.mem_flatMap.mp hmem
    rcases List.mem_append.mp hmem with h | h
    · by_cases c1 : ¬ (F ⊆ G ∨ G ⊆ F)
      · rw [if_pos c1] at h
        rcases List.mem_singleton.mp h with rfl
        exact Or.inl ⟨F, hF, G, hG, not_or.mp c1, rfl⟩
      · rw [if_neg c1] at h
        cases h
    · obtain ⟨i, hi, h⟩ := List.mem_flatMap.mp h
      rcases List.mem_append.mp h with h | h
      · rcases List.mem_append.mp h with h | h
        · by_cases c2 : fy_gb_term M i ≠ zeroP
          · rw [if_pos c2] at h
            rcases List.mem_singleton.mp h with rfl
            refine Or.inr (Or.inl ⟨i, hi, ?_, ?_⟩)
            · rw [← fy_gb_term_eq]
              exact c2
            · rw [← fy_gb_term_eq]
          · rw [if_neg c2] at h
            cases h
        · by_cases c3 : fy_gb_term1 M G ≠ zeroP
          · rw [if_pos c3] at h
            rcases List.mem_singleton.mp h with rfl
            refine Or.inr (Or.inr (Or.inl ⟨G, hG, ?_, ?_⟩))
            · rw [← fy_gb_term1_eq]
              exact c3
            · rw [← fy_gb_term1_eq]
          · rw [if_neg c3] at h
            cases h
      · by_cases c4 : F ⊂ G
        · rw [if_pos c4] at h
          by_cases c5 : fy_gb_term1 M G ≠ zeroP
          · rw [if_pos c5] at h
            rcases List.mem_singleton.mp h with rfl
            refine Or.inr (Or.inr (Or.inr ⟨F, hF, G, hG, c4, ?_, ?_⟩))
            · rw [← fy_gb_term1_eq]
              exact c5
            · rw [← fy_gb_term1_eq]
          · rw [if_neg c5] at h
            cases h
        · rw [if_neg c4] at h
          cases h
  · rintro (⟨F, hF, G, hG, hinc, rfl⟩ | ⟨i, hi, hne, rfl⟩ | ⟨G, hG, hne, rfl⟩
      | ⟨F, hF, G, hG, hss, hne, rfl⟩)
    · refine List.mem_flatMap.mpr ⟨F, hF, List.mem_flatMap.mpr ⟨G, hG, ?_⟩⟩
      refine List.mem_append.mpr (Or.inl ?_)
      rw [if_pos (not_or.mpr hinc)]
      exact List.mem_singleton.mpr rfl
    · obtain ⟨H, hH⟩ := spec_fy_term_ne_zero_mem M i hne
      have hHf : H ∈ fy_flats M := ((mem_fy_containing M i H).mp hH).1
      refine List.mem_flatMap.mpr ⟨H, hHf, List.mem_flatMap.mpr ⟨H, hHf, ?_⟩⟩
      refine List.mem_append.mpr (Or.inr ?_)
      refine List.mem_flatMap.mpr ⟨i, hi, ?_⟩
      refine List.mem_append.mpr (Or.inl (List.mem_append.mpr (Or.inl ?_)))
      rw [if_pos (by rw [fy_gb_term_eq]; exact hne), fy_gb_term_eq]
      exact List.mem_singleton.mpr rfl
    · obtain ⟨i, hi⟩ := List.exists_mem_of_ne_nil M.E hE
      refine List.mem_flatMap.mpr ⟨G, hG, List.mem_flatMap.mpr ⟨G, hG, ?_⟩⟩
      refine List.mem_append.mpr (Or.inr ?_)
      refine List.mem_flatMap.mpr ⟨i, hi, ?_⟩
      refine List.mem_append.mpr (Or.inl (List.mem_append.mpr (Or.inr ?_)))
      rw [if_pos (by rw [fy_gb_term1_eq]; exact hne), fy_gb_term1_eq]
      exact List.mem_singleton.mpr rfl
    · obtain ⟨i, hi⟩ := List.exists_mem_of_ne_nil M.E hE
      refine List.mem_flatMap.mpr ⟨F, hF, List.mem_flatMap.mpr ⟨G, hG, ?_⟩⟩
      refine List.mem_append.mpr (Or.inr ?_)
      refine List.mem_flatMap.mpr ⟨i, hi, ?_⟩
      refine List.mem_append.mpr (Or.inr ?_)
      rw [if_pos hss, if_pos (by rw [fy_gb_term1_eq]; exact hne), fy_gb_term1_eq]
      exact List.mem_singleton.mpr rfl

theorem fy_groebner_basis_description_witness :
    U11.E ≠ []
    ∧ ((powP (spec_fy_term1 U11 {0}) (U11.rnk {0} + 1) ∈ fy_groebner_basis U11)
        ↔ fyGBFamily U11 (powP (spec_fy_term1 U11 {0}) (U11.rnk {0} + 1))) :=
  ⟨by decide, fy_groebner_basis_description U11 (by decide) _⟩

/-- C4 counterexample: for the matroid with empty groundset the sequence
returned by `AugmentedChowRingIdeal_fy.groebner_basis` is empty, while the
claimed union of families contains `term1 ^ (rank + 1)` for the empty
flat; the claimed set equality fails at this input. -/
theorem fy_groebner_basis_empty_groundset_cex :
    fyGBFamily Mempty (powP (spec_fy_term1 Mempty ∅) (Mempty.rnk ∅ + 1))
    ∧ powP (spec_fy_term1 Mempty ∅) (Mempty.rnk ∅ + 1) ∉ fy_groebner_basis Mempty := by
  constructor
  · exact Or.inr (Or.inr (Or.inl ⟨∅, by decide, by decide, rfl⟩))
  · decide

/-- C9: for each of the three variants, calling `groebner_basis` with
algorithm `''` or `'constructed'` takes the specialized closed-form path,
and any other algorithm value delegates to the generic superclass method
with the algorithm argument passed unchanged. -/
theorem groebner_basis_algorithm_dispatch (M : MData) (alg : String) :
    ((alg = "" ∨ alg = "constructed") →
      nonaug_gb_dispatch M alg = .specialized (nonaug_groebner_basis M)
      ∧ fy_gb_dispatch M alg = .specialized (fy_groebner_basis M)
      ∧ af_gb_dispatch M alg = .specialized (af_groebner_basis M))
    ∧ (alg ≠ "" → alg ≠ "constructed" →
      nonaug_gb_dispatch M alg = .delegated alg
      ∧ fy_gb_dispatch M alg = .delegated alg
      ∧ af_gb_dispatch M alg = .delegated alg) := by
  constructor
  · rintro (rfl | rfl) <;>
      exact ⟨rfl, rfl, rfl⟩
  · intro h1 h2
    have e1 : (if alg = "" then "constructed" else alg) = alg := if_neg h1
    rw [nonaug_gb_dispatch, fy_gb_dispatch, af_gb_dispatch]
    simp only [e1, ne_eq, h2, not_false_iff, if_true]
    exact ⟨trivial, trivial, trivial⟩

theorem groebner_basis_algorithm_dispatch_witness :
    (nonaug_gb_dispatch U11 "" = .specialized (nonaug_groebner_basis U11)
      ∧ fy_gb_dispatch U11 "" = .specialized (fy_groebner_basis U11)
      ∧ af_gb_dispatch U11 "" = .specialized (af_groebner_basis U11))
    ∧ (nonaug_gb_dispatch U11 "lex" = .delegated "lex"
      ∧ fy_gb_dispatch U11 "lex" = .delegated "lex"
      ∧ af_gb_dispatch U11 "lex" = .delegated "lex") :=
  ⟨(groebner_basis_algorithm_dispatch U11 "").1 (Or.inl rfl),
   (groebner_basis_algorithm_dispatch U11 "lex").2 (by decide) (by decide)⟩

theorem foldl_guard_none {α : Type} (P : α → Prop) [DecidablePred P]
    (f : α → ZPoly) (l : List α) (a : ZPoly) (h : ∀ H ∈ l, ¬ P H) :
    l.foldl (fun t H => if P H then addP t (f H) else t) a = a := by
  induction l generalizing a with
  | nil => rfl
  | cons b rest ih =>
    rw [List.foldl_cons, if_neg (h b (by simp))]
    exact ih a (fun H hH => h H (by simp [hH]))

/-- C7 (code bug): at the free matroid on one element, the sequence
returned by `AugmentedChowRingIdeal_atom_free.groebner_basis` contains the
constant polynomial `1`, yet `1` is not a member of the ideal generated by
the generator list registered at construction: the returned "Groebner
basis" does not generate the defining ideal of `self`. -/
theorem af_groebner_basis_not_basis_of_self :
    oneP ∈ af_groebner_basis U11
    ∧ ¬ InSpan (af_gens_constructor U11) oneP := by
  constructor
  · decide
  · intro h
    have hg : ∀ g ∈ af_gens_constructor U11, evalP (fun _ => 0) g = 0 := by
      decide
    have h0 := inSpan_evalP_zero (fun _ => 0) (af_gens_constructor U11) hg oneP h
    norm_num [evalP, oneP, evalMon] at h0

/-- C10: for every matroid having a minimal rank-1 enumerated flat (as any
matroid of rank at least 1 does), the strict order-ideal sum `down(F)` of
that flat is the zero polynomial, the unconditionally appended term
`down(F) ^ rank(F) + 1` evaluates to the constant polynomial `1`, the
sequence returned by `AugmentedChowRingIdeal_atom_free.groebner_basis`
contains `1`, and consequently that sequence generates the unit ideal. -/
theorem af_groebner_basis_contains_one (M : MData) (F : Finset ℕ)
    (hF : F ∈ af_flats M) (h1 : M.rnk F = 1)
    (hmin : ∀ H ∈ af_flats M, ¬ H ⊂ F) :
    af_down M F = zeroP
    ∧ addP (powP (af_down M F) (M.rnk F)) oneP = oneP
    ∧ oneP ∈ af_groebner_basis M
    ∧ ∀ p, IsCanon p → InSpan (af_groebner_basis M) p := by
  have hdown : af_down M F = zeroP := by
    rw [af_down]
    exact foldl_guard_none _ _ _ _ hmin
  have hone : oneP ∈ af_groebner_basis M := by
    refine List.mem_flatMap.mpr ⟨F, hF, List.mem_flatMap.mpr ⟨F, hF, ?_⟩⟩
    refine List.mem_append.mpr (Or.inr ?_)
    rw [hdown, h1]
    exact List.mem_singleton.mpr rfl
  refine ⟨hdown, ?_, hone, ?_⟩
  · rw [hdown, h1]
    rfl
  · intro p hp
    have hstep := InSpan.step zeroP p oneP InSpan.zero hone
    rwa [show addP zeroP (mulP p oneP) = mulP p oneP from rfl,
      mulP_oneP_right p hp] at hstep

theorem af_groebner_basis_contains_one_witness :
    af_down U11 {0} = zeroP
    ∧ addP (powP (af_down U11 {0}) (U11.rnk {0})) oneP = oneP
    ∧ oneP ∈ af_groebner_basis U11
    ∧ ∀ p, IsCanon p → InSpan (af_groebner_basis U11) p :=
  af_groebner_basis_contains_one U11 {0} (by decide) (by decide) (by decide)

theorem nonaug_ring_names_length (M : MData) (valid : List String → Bool) :
    (nonaug_ring_names M valid).length = (nonaug_flats M).length := by
  rw [nonaug_ring_names]
  split
  · rw [nonaug_names, List.length_map]
  · rw [indexedNames, List.length_map, List.length_range]

theorem fy_ring_names_length (M : MData) (valid : List String → Bool) :
    (fy_ring_names M valid).length = M.E.length + (fy_flats M).length := by
  rw [fy_ring_names]
  split
  · rw [fy_names, List.length_append, List.length_map, List.length_map]
  · rw [indexedNames, List.length_map, List.length_range]

theorem af_ring_names_length (M : MData) (valid : List String → Bool) :
    (af_ring_names M valid).length = (af_flats M).length := by
  rw [af_ring_names]
  split
  · rw [af_names, List.length_map]
  · rw [indexedNames, List.length_map, List.length_range]

/-- C8 counterexample: for the atom-free (augmented) variant at the free
matroid on one element, with a ring constructor that rejects every
candidate name list (so the `except ValueError` fallback to the indexed
scheme is taken), the resulting ring has exactly one indeterminate (the
number of non-empty flats), not `|flats| + |groundset|` as the claim
states for the augmented variants. -/
theorem af_ring_var_count_cex :
    (af_ring_names U11 (fun _ => false)).length
      ≠ (af_flats U11).length + U11.E.length := by
  rw [af_ring_names_length]
  decide

/-- C8 (amended): for every matroid and every validity behaviour of the
ring constructor, construction succeeds with an all-or-nothing naming
outcome (the canonical names or the whole indexed scheme), the resulting
ring has exactly `|flats|` indeterminates for the non-augmented and
atom-free variants and `|groundset| + |flats|` for the FY variant, and
the flat/element-to-indeterminate assignment is a bijection onto the
ring generator positions. -/
theorem ring_construction_fallback (M : MData) (valid : List String → Bool)
    (hN : (nonaug_flats M).Nodup) (hNf : (fy_flats M).Nodup)
    (hNe : M.E.Nodup) :
    ((nonaug_ring_names M valid).length = (nonaug_flats M).length
      ∧ (fy_ring_names M valid).length = M.E.length + (fy_flats M).length
      ∧ (af_ring_names M valid).length = (af_flats M).length)
    ∧ ((nonaug_ring_names M valid = nonaug_names M
        ∨ nonaug_ring_names M valid = indexedNames (nonaug_flats M).length)
      ∧ (fy_ring_names M valid = fy_names M
        ∨ fy_ring_names M valid = indexedNames (M.E.length + (fy_flats M).length))
      ∧ (af_ring_names M valid = af_names M
        ∨ af_ring_names M valid = indexedNames (af_flats M).length))
    ∧ ((∀ F ∈ nonaug_flats M,
          idxOf (nonaug_flats M) F < (nonaug_ring_names M valid).length)
      ∧ (∀ F ∈ nonaug_flats M, ∀ G ∈ nonaug_flats M,
          idxOf (nonaug_flats M) F = idxOf (nonaug_flats M) G → F = G)
      ∧ (∀ k, k < (nonaug_ring_names M valid).length →
          ∃ F ∈ nonaug_flats M, idxOf (nonaug_flats M) F = k))
    ∧ ((∀ e ∈ M.E, idxOf M.E e < M.E.length)
      ∧ (∀ F ∈ fy_flats M,
          M.E.length + idxOf (fy_flats M) F < (fy_ring_names M valid).length)
      ∧ (∀ e ∈ M.E, ∀ f ∈ M.E, idxOf M.E e = idxOf M.E f → e = f)
      ∧ (∀ F ∈ fy_flats M, ∀ G ∈ fy_flats M,
          idxOf (fy_flats M) F = idxOf (fy_flats M) G → F = G)
      ∧ (∀ k, k < (fy_ring_names M valid).length →
          (∃ e ∈ M.E, idxOf M.E e = k)
          ∨ (∃ F ∈ fy_flats M, M.E.length + idxOf (fy_flats M) F = k))) := by
  refine ⟨⟨nonaug_ring_names_length M valid, fy_ring_names_length M valid,
      af_ring_names_length M valid⟩, ⟨?_, ?_, ?_⟩, ⟨?_, ?_, ?_⟩, ⟨?_, ?_, ?_, ?_, ?_⟩⟩
  · rw [nonaug_ring_names]
    split
    · exact Or.inl rfl
    · exact Or.inr rfl
  · rw [fy_ring_names]
    split
    · exact Or.inl rfl
    · exact Or.inr rfl
  · rw [af_ring_names]
    split
    · exact Or.inl rfl
    · exact Or.inr rfl
  · intro F hF
    rw [nonaug_ring_names_length]
    exact idxOf_lt_length hF
  · intro F hF G hG h
    exact idxOf_inj hN hF hG h
  · intro k hk
    rw [nonaug_ring_names_length] at hk
    exact ⟨(nonaug_flats M)[k], List.getElem_mem hk, idxOf_getElem hN k hk⟩
  · intro e he
    exact idxOf_lt_length he
  · intro F hF
    rw [fy_ring_names_length]
    have := idxOf_lt_length hF
    omega
  · intro e he f hf h
    exact idxOf_inj hNe he hf h
  · intro F hF G hG h
    exact idxOf_inj hNf hF hG h
  · intro k hk
    rw [fy_ring_names_length] at hk
    by_cases hke : k < M.E.length
    · exact Or.inl ⟨M.E[k], List.getElem_mem hke, idxOf_getElem hNe k hke⟩
    · have hkf : k - M.E.length < (fy_flats M).length := by omega
      refine Or.inr ⟨(fy_flats M)[k - M.E.length], List.getElem_mem hkf, ?_⟩
      rw [idxOf_getElem hNf _ hkf]
      omega

theorem ring_construction_fallback_witness :
    (nonaug_flats U23).Nodup ∧ (fy_flats U23).Nodup ∧ U23.E.Nodup
    ∧ ((nonaug_ring_names U23 (fun _ => false)).length = (nonaug_flats U23).length
      ∧ (fy_ring_names U23 (fun _ => false)).length
          = U23.E.length + (fy_flats U23).length
      ∧ (af_ring_names U23 (fun _ => false)).length = (af_flats U23).length) :=
  ⟨by decide, by decide, by decide,
   (ring_construction_fallback U23 (fun _ => false)
      (by decide) (by decide) (by decide)).1⟩

theorem rep_canon (il : List ℕ) (h : il.Pairwise (· < ·)) :
    IsCanon (il.map (fun u => ([u], (1 : ℤ)))) := by
  constructor
  · rw [List.chain'_map]
    refine List.Pairwise.chain' ?_
    refine h.imp ?_
    intro a b hab
    rw [monCmp]
    simp [hab]
  · intro t ht
    obtain ⟨u, _, rfl⟩ := List.mem_map.mp ht
    exact List.chain'_singleton u

theorem af_containing_idx_pairwise (M : MData) (hN : (af_flats M).Nodup)
    (e : ℕ) :
    ((af_containing M e).map (idxOf (af_flats M))).Pairwise (· < ·) := by
  rw [List.pairwise_map, af_containing]
  exact (pairwise_idxOf (af_flats M) hN).filter _

theorem spec_af_S_rep (M : MData) (hN : (af_flats M).Nodup) (e : ℕ) :
    spec_af_S M e
      = ((af_containing M e).map (idxOf (af_flats M))).map
          (fun u => ([u], (1 : ℤ))) := by
  rw [spec_af_S, flatSum, sumPolys]
  have h1 : (af_containing M e).map (af_x M)
      = ((af_containing M e).map (idxOf (af_flats M))).map xv := by
    rw [List.map_map]
    rfl
  rw [h1, sumVars_rep _ (af_containing_idx_pairwise M hN e)]

theorem af_sq_coeff_one (M : MData) (hN : (af_flats M).Nodup) (e : ℕ)
    (K : Finset ℕ) (hK : K ∈ af_flats M) (heK : e ∈ K) :
    coeff (powP (spec_af_S M e) 2)
      [idxOf (af_flats M) K, idxOf (af_flats M) K] = 1 := by
  have hcanon : IsCanon (spec_af_S M e) := by
    rw [spec_af_S_rep M hN e]
    exact rep_canon _ (af_containing_idx_pairwise M hN e)
  have h2 : powP (spec_af_S M e) 2
      = mulP (spec_af_S M e) (spec_af_S M e) := by
    show mulP (mulP (powP (spec_af_S M e) 0) (spec_af_S M e)) (spec_af_S M e) = _
    rw [show powP (spec_af_S M e) 0 = oneP from rfl, mulP_oneP_left _ hcanon]
  have hnodup : ((af_containing M e).map (idxOf (af_flats M))).Nodup := by
    refine List.Pairwise.imp ?_ (af_containing_idx_pairwise M hN e)
    intro a b hab
    omega
  have hmem : idxOf (af_flats M) K ∈ (af_containing M e).map (idxOf (af_flats M)) :=
    List.mem_map.mpr ⟨K, (mem_af_containing M e K).mpr ⟨hK, heK⟩, rfl⟩
  have hv : ((af_containing M e).map (idxOf (af_flats M))).count
      (idxOf (af_flats M) K) = 1 := List.count_eq_one_of_mem hnodup hmem
  rw [h2, spec_af_S_rep M hN e, coeff_two_sums_vv, hv]
  norm_num

theorem af_prod_ne_sq (M : MData) (hN : (af_flats M).Nodup) (e : ℕ)
    (K : Finset ℕ) (hK : K ∈ af_flats M) (heK : e ∈ K)
    (F G : Finset ℕ) (hF : F ∈ af_flats M) (hG : G ∈ af_flats M)
    (hFG : F ≠ G) :
    mulP (af_x M F) (af_x M G) ≠ powP (spec_af_S M e) 2 := by
  intro heq
  have h1 := congrArg (fun p => coeff p
    [idxOf (af_flats M) K, idxOf (af_flats M) K]) heq
  simp only at h1
  rw [af_sq_coeff_one M hN e K hK heK, af_x, af_x, coeff_xx_vv] at h1
  have h2 : ¬ (idxOf (af_flats M) F = idxOf (af_flats M) K
      ∧ idxOf (af_flats M) G = idxOf (af_flats M) K) := by
    rintro ⟨hFK, hGK⟩
    exact hFG ((idxOf_inj hN hF hG) (hFK.trans hGK.symm))
  rw [if_neg h2] at h1
  exact absurd h1 (by norm_num)

theorem af_eprod_ne_sq (M : MData) (hN : (af_flats M).Nodup) (e : ℕ)
    (K : Finset ℕ) (hK : K ∈ af_flats M) (heK : e ∈ K)
    (F : Finset ℕ) (hF : F ∈ af_flats M) (x : ℕ) (hxF : x ∉ F) :
    mulP (af_x M F) (af_elem_term M x) ≠ powP (spec_af_S M e) 2 := by
  intro heq
  have h1 := congrArg (fun p => coeff p
    [idxOf (af_flats M) K, idxOf (af_flats M) K]) heq
  simp only at h1
  rw [af_sq_coeff_one M hN e K hK heK, af_elem_term_eq, af_x,
    spec_af_S_rep M hN x, coeff_x_sum_vv] at h1
  by_cases hFK : idxOf (af_flats M) F = idxOf (af_flats M) K
  · have hFK2 : F = K := idxOf_inj hN hF hK hFK
    rw [if_pos hFK] at h1
    have hKc : idxOf (af_flats M) K ∉ (af_containing M x).map (idxOf (af_flats M)) := by
      intro hmem
      obtain ⟨H, hH, hHK⟩ := List.mem_map.mp hmem
      have hHf : H ∈ af_flats M := ((mem_af_containing M x H).mp hH).1
      have : H = K := idxOf_inj hN hHf hK hHK
      subst this
      exact hxF (hFK2 ▸ ((mem_af_containing M x H).mp hH).2)
    rw [List.count_eq_zero.mpr hKc] at h1
    exact absurd h1 (by norm_num)
  · rw [if_neg hFK] at h1
    exact absurd h1 (by norm_num)

theorem foldl_mem_mono {α : Type} (step : List ZPoly → α → List ZPoly)
    (hstep : ∀ Q x p, p ∈ Q → p ∈ step Q x)
    (l : List α) (Q : List ZPoly) (p : ZPoly) (h : p ∈ Q) :
    p ∈ l.foldl step Q := by
  induction l generalizing Q with
  | nil => exact h
  | cons x t ih => exact ih (step Q x) (hstep Q x p h)

theorem foldl_mem_cases {α : Type} (step : List ZPoly → α → List ZPoly)
    (NEW : α → ZPoly → Prop)
    (hstep : ∀ Q x p, p ∈ step Q x → p ∈ Q ∨ NEW x p)
    (l : List α) (Q : List ZPoly) (p : ZPoly) (h : p ∈ l.foldl step Q) :
    p ∈ Q ∨ ∃ x ∈ l, NEW x p := by
  induction l generalizing Q with
  | nil => exact Or.inl h
  | cons y t ih =>
    rcases ih (step Q y) h with h2 | ⟨x, hx, hn⟩
    · rcases hstep Q y p h2 with h3 | h3
      · exact Or.inl h3
      · exact Or.inr ⟨y, by simp, h3⟩
    · exact Or.inr ⟨x, by simp [hx], hn⟩

theorem foldl_mem_at {α : Type} (step : List ZPoly → α → List ZPoly)
    (hmono : ∀ Q x p, p ∈ Q → p ∈ step Q x)
    (l : List α) (x : α) (hx : x ∈ l) (p : ZPoly)
    (hadd : ∀ Q, p ∈ step Q x) (Q : List ZPoly) :
    p ∈ l.foldl step Q := by
  induction l generalizing Q with
  | nil => cases hx
  | cons y t ih =>
    rcases List.mem_cons.mp hx with h1 | hx2
    · subst h1
      rw [List.foldl_cons]
      exact foldl_mem_mono step hmono t (step Q x) p (hadd Q)
    · rw [List.foldl_cons]
      exact ih hx2 (step Q y)

theorem af_elem_step_mono (M : MData) (F : Finset ℕ) (Q : List ZPoly)
    (x : ℕ) (p : ZPoly) (h : p ∈ Q) : p ∈ af_gens_elem_step M F Q x := by
  rw [af_gens_elem_step]
  refine List.mem_append.mpr (Or.inl ?_)
  split
  · exact h
  · exact List.mem_append.mpr (Or.inl h)

theorem af_elem_step_cases (M : MData) (F : Finset ℕ) (Q : List ZPoly)
    (x : ℕ) (p : ZPoly) (h : p ∈ af_gens_elem_step M F Q x) :
    p ∈ Q ∨ p = powP (af_elem_term M x) 2
      ∨ (F ∉ af_containing M x ∧ p = mulP (af_x M F) (af_elem_term M x)) := by
  rw [af_gens_elem_step] at h
  rcases List.mem_append.mp h with h | h
  · rcases (by split at h <;> simp_all :
        p ∈ Q ∨ p = powP (af_elem_term M x) 2) with h2 | h2
    · exact Or.inl h2
    · exact Or.inr (Or.inl h2)
  · by_cases hc : F ∈ af_containing M x
    · rw [if_pos hc] at h
      cases h
    · rw [if_neg hc] at h
      exact Or.inr (Or.inr ⟨hc, List.mem_singleton.mp h⟩)

theorem af_elem_step_sq (M : MData) (F : Finset ℕ) (x : ℕ) (Q : List ZPoly) :
    powP (af_elem_term M x) 2 ∈ af_gens_elem_step M F Q x := by
  rw [af_gens_elem_step]
  refine List.mem_append.mpr (Or.inl ?_)
  split
  · assumption
  · exact List.mem_append.mpr (Or.inr (List.mem_singleton.mpr rfl))

theorem af_elem_step_prod (M : MData) (F : Finset ℕ) (x : ℕ)
    (hx : F ∉ af_containing M x) (Q : List ZPoly) :
    mulP (af_x M F) (af_elem_term M x) ∈ af_gens_elem_step M F Q x := by
  rw [af_gens_elem_step]
  refine List.mem_append.mpr (Or.inr ?_)
  rw [if_neg hx]
  exact List.mem_singleton.mpr rfl

theorem af_flat_step_mono (M : MData) (Q : List ZPoly) (F : Finset ℕ)
    (p : ZPoly) (h : p ∈ Q) : p ∈ af_gens_flat_step M Q F := by
  rw [af_gens_flat_step]
  exact foldl_mem_mono _ (af_elem_step_mono M F) _ _ p
    (List.mem_append.mpr (Or.inl h))

theorem af_flat_step_cases (M : MData) (Q : List ZPoly) (F : Finset ℕ)
    (p : ZPoly) (h : p ∈ af_gens_flat_step M Q F) :
    p ∈ Q
    ∨ (∃ G ∈ af_flats M, ¬ (F ⊆ G ∨ G ⊂ F) ∧ p = mulP (af_x M F) (af_x M G))
    ∨ (∃ x ∈ M.E, p = powP (af_elem_term M x) 2
        ∨ (F ∉ af_containing M x ∧ p = mulP (af_x M F) (af_elem_term M x))) := by
  rw [af_gens_flat_step] at h
  rcases foldl_mem_cases _
    (fun x p => p = powP (af_elem_term M x) 2
      ∨ (F ∉ af_containing M x ∧ p = mulP (af_x M F) (af_elem_term M x)))
    (af_elem_step_cases M F) _ _ p h with h2 | ⟨x, hx, hn⟩
  · rcases List.mem_append.mp h2 with h3 | h3
    · exact Or.inl h3
    · obtain ⟨G, hG, rfl⟩ := List.mem_map.mp h3
      have hG2 := List.mem_filter.mp hG
      exact Or.inr (Or.inl ⟨G, hG2.1, by simpa using hG2.2, rfl⟩)
  · exact Or.inr (Or.inr ⟨x, hx, hn⟩)

theorem af_gens_mem_prod (M : MData) (F G : Finset ℕ)
    (hF : F ∈ af_flats M) (hG : G ∈ af_flats M)
    (hcond : ¬ (F ⊆ G ∨ G ⊂ F)) :
    mulP (af_x M F) (af_x M G) ∈ af_gens_constructor M := by
  rw [af_gens_constructor]
  refine foldl_mem_at _ (af_flat_step_mono M) _ F hF _ ?_ []
  intro Q
  rw [af_gens_flat_step]
  refine foldl_mem_mono _ (af_elem_step_mono M F) _ _ _ ?_
  refine List.mem_append.mpr (Or.inr ?_)
  exact List.mem_map.mpr ⟨G, List.mem_filter.mpr ⟨hG, by simpa using hcond⟩, rfl⟩

theorem af_gens_mem_eprod (M : MData) (F : Finset ℕ) (x : ℕ)
    (hF : F ∈ af_flats M) (hx : x ∈ M.E) (hxF : F ∉ af_containing M x) :
    mulP (af_x M F) (af_elem_term M x) ∈ af_gens_constructor M := by
  rw [af_gens_constructor]
  refine foldl_mem_at _ (af_flat_step_mono M) _ F hF _ ?_ []
  intro Q
  rw [af_gens_flat_step]
  exact foldl_mem_at _ (af_elem_step_mono M F) _ x hx _
    (af_elem_step_prod M F x hxF) _

theorem af_gens_mem_sq (M : MData) (F : Finset ℕ) (x : ℕ)
    (hF : F ∈ af_flats M) (hx : x ∈ M.E) :
    powP (af_elem_term M x) 2 ∈ af_gens_constructor M := by
  rw [af_gens_constructor]
  refine foldl_mem_at _ (af_flat_step_mono M) _ F hF _ ?_ []
  intro Q
  rw [af_gens_flat_step]
  exact foldl_mem_at _ (af_elem_step_mono M F) _ x hx _
    (af_elem_step_sq M F x) _

theorem foldl_pred_preserve {α β : Type} (step : β → α → β) (INV : β → Prop)
    (l : List α) (hstep : ∀ Q x, x ∈ l → INV Q → INV (step Q x))
    (Q : β) (h : INV Q) : INV (l.foldl step Q) := by
  induction l generalizing Q with
  | nil => exact h
  | cons y t ih =>
    rw [List.foldl_cons]
    exact ih (fun Q2 x hx h2 => hstep Q2 x (by simp [hx]) h2) (step Q y)
      (hstep Q y (by simp) h)

theorem count_singleton_zero_of_ne (w q : ZPoly) (h : q ≠ w) :
    List.count w [q] = 0 := by
  rw [List.count_eq_zero]
  intro hmem
  exact h (List.mem_singleton.mp hmem).symm

theorem af_count_elem_step (M : MData) (hN : (af_flats M).Nodup) (e : ℕ)
    (K : Finset ℕ) (hK : K ∈ af_flats M) (heK : e ∈ K)
    (F : Finset ℕ) (hF : F ∈ af_flats M) (x : ℕ) (Q : List ZPoly)
    (h : Q.count (powP (spec_af_S M e) 2) ≤ 1) :
    (af_gens_elem_step M F Q x).count (powP (spec_af_S M e) 2) ≤ 1 := by
  rw [af_gens_elem_step, List.count_append]
  have hsecond : (if F ∈ af_containing M x then ([] : List ZPoly)
      else [mulP (af_x M F) (af_elem_term M x)]).count
        (powP (spec_af_S M e) 2) = 0 := by
    split
    · rfl
    · rename_i hc
      refine count_singleton_zero_of_ne _ _ ?_
      refine af_eprod_ne_sq M hN e K hK heK F hF x ?_
      intro hxF
      exact hc ((mem_af_containing M x F).mpr ⟨hF, hxF⟩)
  rw [hsecond]
  have hfirst : (if powP (af_elem_term M x) 2 ∈ Q then Q
      else Q ++ [powP (af_elem_term M x) 2]).count (powP (spec_af_S M e) 2) ≤ 1 := by
    split
    · exact h
    · rename_i hnot
      rw [List.count_append]
      by_cases hsq : powP (af_elem_term M x) 2 = powP (spec_af_S M e) 2
      · have hz : Q.count (powP (spec_af_S M e) 2) = 0 := by
          rw [List.count_eq_zero]
          intro hmem
          exact hnot (hsq ▸ hmem)
        rw [hz]
        simp [List.count_singleton, hsq]
      · rw [count_singleton_zero_of_ne _ _ hsq]
        omega
  omega

theorem af_count_flat_step (M : MData) (hN : (af_flats M).Nodup) (e : ℕ)
    (K : Finset ℕ) (hK : K ∈ af_flats M) (heK : e ∈ K)
    (F : Finset ℕ) (hF : F ∈ af_flats M) (Q : List ZPoly)
    (h : Q.count (powP (spec_af_S M e) 2) ≤ 1) :
    (af_gens_flat_step M Q F).count (powP (spec_af_S M e) 2) ≤ 1 := by
  rw [af_gens_flat_step]
  refine foldl_pred_preserve _ (fun Q2 => Q2.count (powP (spec_af_S M e) 2) ≤ 1)
    M.E (fun Q2 x _ h2 => af_count_elem_step M hN e K hK heK F hF x Q2 h2) _ ?_
  show (Q ++ _).count (powP (spec_af_S M e) 2) ≤ 1
  rw [List.count_append]
  have hz : (((af_flats M).filter
      (fun G => decide (¬ (F ⊆ G ∨ G ⊂ F)))).map
        (fun G => mulP (af_x M F) (af_x M G))).count
      (powP (spec_af_S M e) 2) = 0 := by
    rw [List.count_eq_zero]
    intro hmem
    obtain ⟨G, hG, hGe⟩ := List.mem_map.mp hmem
    have hG2 := List.mem_filter.mp hG
    have hcond : ¬ (F ⊆ G ∨ G ⊂ F) := by simpa using hG2.2
    have hFG : F ≠ G := by
      intro he2
      exact hcond (Or.inl (he2 ▸ subset_rfl))
    exact af_prod_ne_sq M hN e K hK heK F G hF hG2.1 hFG hGe
  omega

theorem af_gens_count_le_one (M : MData) (hN : (af_flats M).Nodup) (e : ℕ)
    (K : Finset ℕ) (hK : K ∈ af_flats M) (heK : e ∈ K) :
    (af_gens_constructor M).count (powP (spec_af_S M e) 2) ≤ 1 := by
  rw [af_gens_constructor]
  exact foldl_pred_preserve _ (fun Q => Q.count (powP (spec_af_S M e) 2) ≤ 1)
    (af_flats M)
    (fun Q F hFmem h2 => af_count_flat_step M hN e K hK heK F hFmem Q h2)
    [] (by simp)

/-- C6 (amended): for every matroid with distinct enumerated flats in
which every groundset element lies in some non-empty flat (as in every
matroid of rank at least 1), the generator list built by
`AugmentedChowRingIdeal_atom_free._gens_constructor` consists exactly of
the incomparable products `x_F * x_G`, the products `x_F * S_e` for
`e ∉ F`, and the squares `S_e ^ 2`, and each distinct polynomial value
`S_e ^ 2` occurs exactly once in the list. -/
theorem af_gens_constructor_description (M : MData)
    (hN : (af_flats M).Nodup)
    (hcov : ∀ x ∈ M.E, ∃ F ∈ af_flats M, x ∈ F) :
    (∀ p : ZPoly, p ∈ af_gens_constructor M ↔ afGensFamily M p)
    ∧ (∀ e ∈ M.E,
        (af_gens_constructor M).count (powP (spec_af_S M e) 2) = 1) := by
  constructor
  · intro p
    constructor
    · intro h
      rw [af_gens_constructor] at h
      rcases foldl_mem_cases _ (fun F p =>
          (∃ G ∈ af_flats M, ¬ (F ⊆ G ∨ G ⊂ F) ∧ p = mulP (af_x M F) (af_x M G))
          ∨ (∃ x ∈ M.E, p = powP (af_elem_term M x) 2
              ∨ (F ∉ af_containing M x ∧ p = mulP (af_x M F) (af_elem_term M x))))
          (fun Q F p h => by
            rcases af_flat_step_cases M Q F p h with h2 | h2 | h2
            · exact Or.inl h2
            · exact Or.inr (Or.inl h2)
            · exact Or.inr (Or.inr h2)) _ _ p h with h2 | ⟨F, hF, hn⟩
      · cases h2
      · rcases hn with ⟨G, hG, hcond, rfl⟩ | ⟨x, hx, hcase⟩
        · exact Or.inl ⟨F, hF, G, hG, (incomp_cond_iff F G).mp hcond, rfl⟩
        · rcases hcase with rfl | ⟨hnc, rfl⟩
          · exact Or.inr (Or.inr ⟨x, hx, by rw [af_elem_term_eq]⟩)
          · refine Or.inr (Or.inl ⟨F, hF, x, hx, ?_, by rw [af_elem_term_eq]⟩)
            intro hxF
            exact hnc ((mem_af_containing M x F).mpr ⟨hF, hxF⟩)
    · rintro (⟨F, hF, G, hG, hinc, rfl⟩ | ⟨F, hF, x, hx, hxF, rfl⟩ | ⟨x, hx, rfl⟩)
      · exact af_gens_mem_prod M F G hF hG ((incomp_cond_iff F G).mpr hinc)
      · rw [← af_elem_term_eq]
        refine af_gens_mem_eprod M F x hF hx ?_
        intro hc
        exact hxF ((mem_af_containing M x F).mp hc).2
      · rw [← af_elem_term_eq]
        obtain ⟨F, hF, _⟩ := hcov x hx
        exact af_gens_mem_sq M F x hF hx
  · intro e he
    obtain ⟨K, hK, heK⟩ := hcov e he
    have hle := af_gens_count_le_one M hN e K hK heK
    have hmem : powP (spec_af_S M e) 2 ∈ af_gens_constructor M := by
      rw [← af_elem_term_eq]
      exact af_gens_mem_sq M K e hK he
    have hpos : 0 < (af_gens_constructor M).count (powP (spec_af_S M e) 2) :=
      List.count_pos_iff.mpr hmem
    omega

theorem af_gens_constructor_description_witness :
    (af_flats U11).Nodup ∧ (∀ x ∈ U11.E, ∃ F ∈ af_flats U11, x ∈ F)
    ∧ ((∀ p : ZPoly, p ∈ af_gens_constructor U11 ↔ afGensFamily U11 p)
      ∧ (∀ e ∈ U11.E,
          (af_gens_constructor U11).count (powP (spec_af_S U11 e) 2) = 1)) :=
  ⟨by decide, by decide,
   af_gens_constructor_description U11 (by decide) (by decide)⟩

/-- C6 counterexample: for the rank-0 matroid on a single loop, the
generator list is empty (the groundset loop never runs because there are
no non-empty flats), while the claimed families contain the square
`S_0 ^ 2 = 0`; the claimed description fails at this input. -/
theorem af_gens_rank_zero_cex :
    afGensFamily Mloop zeroP ∧ zeroP ∉ af_gens_constructor Mloop := by
  constructor
  · refine Or.inr (Or.inr ⟨0, by decide, by decide⟩)
  · decide
